import Mathlib

/-!
Verification of the Fancy2048 move-search and heuristic-evaluation engine.

This file gives a shallow embedding of the AI components of the repository:

* `src/advanced_ai_solver.py` — the `Advanced2048AI` class: board mechanics
  (`_move_left/right/up/down`, `_simulate_move`), the Expectimax and Alpha-Beta
  searches with their transposition cache, the MCTS decision procedure, the
  algorithm/difficulty factory `create_ai_solver`, and the `get_best_move`
  dispatcher.
* `src/app.py` — the `AISolver` class (`_expectimax`, `_move_and_merge_array_ai`,
  the evaluation cache) and `GameEngine._move_and_merge_array`.

Modelling conventions:

* Python ints are `Nat` (tile values and scores are non-negative); Python float
  values arising in the search are modelled as rationals extended with the two
  infinities (`XF` below).  The heuristic evaluation bodies use real-valued
  `math.log2` / `sqrt` / `pow` arithmetic, so the *value* computed by an
  evaluator is abstracted as a function parameter, while its memoization
  structure is embedded exactly.
* Wall-clock time-budget checks (`time.time() - self.start_time > self.time_limit`)
  are modelled as never firing: the claims under verification all assume the
  time budget is not exceeded.
* Python dictionaries used as caches are modelled as association lists keyed by
  the board itself: `str(state.board)` (advanced solver) is injective on boards,
  and the comma-joined key of `AISolver._get_board_key` determines the flattened
  cell sequence.
* `random.choice` / `random.random` draws in MCTS are modelled by an oracle
  `rnd : Nat → Nat` consulted at an increasing counter; the `max(..., key=ucb1)`
  child selection — whose UCB1 value uses real `sqrt`/`log` — is abstracted as a
  child-chooser parameter.  The theorems below hold for every oracle and chooser.
* Depth budgets are naturals with the source's `depth == 0` base case; the
  factory only produces budgets 3..6.
-/

namespace Fancy2048

/-- The `Direction` enum of `advanced_ai_solver.py` (lines 26-30). -/
inductive Direction where
  | up
  | down
  | left
  | right
deriving DecidableEq, Repr

instance : Fintype Direction :=
  ⟨⟨{.up, .down, .left, .right}, by decide⟩, by intro x; cases x <;> decide⟩

/-- The fixed iteration order of `for direction in Direction` in Python:
members iterate in definition order UP, DOWN, LEFT, RIGHT. -/
def directionList : List Direction := [.up, .down, .left, .right]

/-- A board is a list of rows of tile values (0 = empty). -/
abbrev Board := List (List Nat)

/-- The `GameState` dataclass of `advanced_ai_solver.py` (lines 32-44). -/
structure GameState where
  board : Board
  score : Nat
  size : Nat
deriving DecidableEq, Repr

/-- `GameState.get_empty_cells` (lines 46-53): coordinates of empty cells in
row-major order. -/
def getEmptyCells (st : GameState) : List (Nat × Nat) :=
  (List.range st.size).flatMap (fun i =>
    (List.range st.size).filterMap (fun j =>
      if (st.board.getD i []).getD j 0 = 0 then some (i, j) else none))

/-- The tile-merging loop shared by `_move_left`/`_move_up`
(advanced_ai_solver.py lines 490-499) and `GameEngine._move_and_merge_array`
(app.py lines 253-265): adjacent equal tiles merge left-to-right, and each
merge adds the doubled value to the score.  Returns the merged tiles and the
score gained. -/
def mergeTiles : List Nat → List Nat × Nat
  | [] => ([], 0)
  | [a] => ([a], 0)
  | a :: b :: t =>
    if a = b then
      let r := mergeTiles t
      (a * 2 :: r.1, a * 2 + r.2)
    else
      let r := mergeTiles (b :: t)
      (a :: r.1, r.2)

/-- One row of `_move_left` (lines 485-507): drop zeros, merge, pad with zeros
on the right up to `size`.  Returns the new row and the score gained. -/
def rowOpLeft (size : Nat) (row : List Nat) : List Nat × Nat :=
  let tiles := row.filter (· ≠ 0)
  let r := mergeTiles tiles
  (r.1 ++ List.replicate (size - r.1.length) 0, r.2)

/-- One row of `_move_right` (lines 515-537): the merge loop runs from the
right (`merged.insert(0, ...)` scanning indices downwards), which is the
left-merge of the reversed tiles, and zeros pad on the left. -/
def rowOpRight (size : Nat) (row : List Nat) : List Nat × Nat :=
  let tiles := row.filter (· ≠ 0)
  let r := mergeTiles tiles.reverse
  (List.replicate (size - r.1.length) 0 ++ r.1.reverse, r.2)

/-- `_move_left` (lines 481-509): row by row, each replaced when it changed;
`moved` records whether any row changed.  Score gains are added during the
merge loop (they are nonzero only when the row changes). -/
def moveLeft (st : GameState) : Bool × GameState :=
  (List.range st.size).foldl
    (fun acc row =>
      let s := acc.2
      let rowArr := s.board.getD row []
      let r := rowOpLeft s.size rowArr
      let s1 : GameState := { s with score := s.score + r.2 }
      if r.1 ≠ rowArr then
        (true, { s1 with board := s1.board.set row r.1 })
      else
        (acc.1, s1))
    (false, st)

/-- `_move_right` (lines 511-539). -/
def moveRight (st : GameState) : Bool × GameState :=
  (List.range st.size).foldl
    (fun acc row =>
      let s := acc.2
      let rowArr := s.board.getD row []
      let r := rowOpRight s.size rowArr
      let s1 : GameState := { s with score := s.score + r.2 }
      if r.1 ≠ rowArr then
        (true, { s1 with board := s1.board.set row r.1 })
      else
        (acc.1, s1))
    (false, st)

/-- Column `col` of a board read as in the Python comprehensions
`[board[row][col] for row in range(size)]`. -/
def getColumn (b : Board) (size col : Nat) : List Nat :=
  (List.range size).map (fun row => (b.getD row []).getD col 0)

/-- The write-back loop `for row in range(size): board[row][col] = new_col[row]`. -/
def setColumn (b : Board) (size col : Nat) (v : List Nat) : Board :=
  (List.range size).foldl
    (fun b row => b.set row ((b.getD row []).set col (v.getD row 0))) b

/-- `_move_up` (lines 541-571): columns merge towards the top. -/
def moveUp (st : GameState) : Bool × GameState :=
  (List.range st.size).foldl
    (fun acc col =>
      let s := acc.2
      let oldCol := getColumn s.board s.size col
      let r := rowOpLeft s.size oldCol
      let s1 : GameState := { s with score := s.score + r.2 }
      if r.1 ≠ oldCol then
        (true, { s1 with board := setColumn s1.board s1.size col r.1 })
      else
        (acc.1, s1))
    (false, st)

/-- `_move_down` (lines 573-603): columns merge towards the bottom. -/
def moveDown (st : GameState) : Bool × GameState :=
  (List.range st.size).foldl
    (fun acc col =>
      let s := acc.2
      let oldCol := getColumn s.board s.size col
      let r := rowOpRight s.size oldCol
      let s1 : GameState := { s with score := s.score + r.2 }
      if r.1 ≠ oldCol then
        (true, { s1 with board := setColumn s1.board s1.size col r.1 })
      else
        (acc.1, s1))
    (false, st)

/-- `_simulate_move` (lines 466-479): work on a copy of the state, apply the
move, and return the new state only when something moved.  (Copies have value
semantics here; the explicit-heap model below re-examines the aliasing.) -/
def simulateMove (st : GameState) (d : Direction) : Option GameState :=
  let r :=
    match d with
    | .left => moveLeft st
    | .right => moveRight st
    | .up => moveUp st
    | .down => moveDown st
  if r.1 then some r.2 else none

/-- `_has_possible_moves` (lines 605-611). -/
def hasPossibleMoves (st : GameState) : Bool :=
  directionList.any (fun d => (simulateMove st d).isSome)

/-- The legal directions from a state, in the fixed iteration order. -/
def legalDirections (st : GameState) : List Direction :=
  directionList.filter (fun d => (simulateMove st d).isSome)

/-- `new_state.board[i][j] = tile_value` on a copy of the state
(lines 159-160 and 234-235). -/
def placeTile (st : GameState) (i j v : Nat) : GameState :=
  { st with board := st.board.set i ((st.board.getD i []).set j v) }

/-- Total of all cell values of a board. -/
def boardSum (b : Board) : Nat := (b.map List.sum).sum

/-- A board agreeing with its declared dimension. -/
def SizedState (st : GameState) : Prop :=
  st.board.length = st.size ∧ ∀ r ∈ st.board, r.length = st.size

/-- Python float values arising in the search: rationals together with
`float('inf')` and `-float('inf')`. -/
inductive XF where
  | negInf
  | fin (q : ℚ)
  | posInf
deriving DecidableEq, Repr

/-- The float order on `XF` (Python `<=`). -/
def XF.le : XF → XF → Bool
  | .negInf, _ => true
  | .fin _, .negInf => false
  | .fin a, .fin b => decide (a ≤ b)
  | .fin _, .posInf => true
  | .posInf, .posInf => true
  | .posInf, _ => false

/-- Strict float order (Python `>` reversed). -/
def XF.lt : XF → XF → Bool
  | .negInf, .negInf => false
  | .negInf, _ => true
  | .fin a, .fin b => decide (a < b)
  | .fin _, .posInf => true
  | _, _ => false

/-- Python `max` of two floats (returns the second only when strictly larger,
which agrees with numeric `max` in every case). -/
def XF.max (a b : XF) : XF := if XF.le a b then b else a

/-- Float addition; the IEEE NaN case `inf + (-inf)` never arises in the
modelled runs and is mapped to 0. -/
def XF.add : XF → XF → XF
  | .fin a, .fin b => .fin (a + b)
  | .negInf, .posInf => .fin 0
  | .posInf, .negInf => .fin 0
  | .negInf, _ => .negInf
  | _, .negInf => .negInf
  | _, _ => .posInf

/-- Multiplication by a rational scalar; for infinite operands the sign rule of
float multiplication applies (the `0 * inf` NaN never arises and is mapped
to 0). -/
def XF.scale (p : ℚ) : XF → XF
  | .fin a => .fin (p * a)
  | .posInf => if 0 < p then .posInf else if p < 0 then .negInf else .fin 0
  | .negInf => if 0 < p then .negInf else if p < 0 then .posInf else .fin 0

/-- Division by the (always positive in the modelled runs) cell count. -/
def XF.divNat : XF → Nat → XF
  | .fin a, n => .fin (a / n)
  | x, _ => x

/-- Finite floats. -/
def XF.isFin : XF → Bool
  | .fin _ => true
  | _ => false

/-- Association-list lookup, modelling Python dict lookup. -/
def alookup {κ α : Type} [DecidableEq κ] : List (κ × α) → κ → Option α
  | [], _ => none
  | (k, v) :: t, k' => if k = k' then some v else alookup t k'

/-- The transposition table `self.cache`, keyed by `str(state.board)`
(`_get_state_key`, lines 613-615), which is injective on boards and is
modelled by the board itself. -/
abbrev TCache := List (Board × XF)

/-- The heuristic memoization table `self.heuristic_cache` (line 99),
likewise keyed by the board. -/
abbrev HCache := List (Board × ℚ)

/-- `_evaluate_state` (lines 306-347).  The weighted heuristic arithmetic of
lines 314-342 uses real-valued `math.log2` and is abstracted as the parameter
`f` (any rational-valued function of the state); the memoization by board key
(lines 310-312 and 344-345) is embedded exactly. -/
def evaluateState (f : GameState → ℚ) (st : GameState) (hc : HCache) : ℚ × HCache :=
  match alookup hc st.board with
  | some v => (v, hc)
  | none => (f st, (st.board, f st) :: hc)

/-- The mutable search bookkeeping of `Advanced2048AI` threaded through a
search: `self.cache`, `self.heuristic_cache` and `self.nodes_evaluated`. -/
structure SearchSt where
  cache : TCache
  hcache : HCache
  nodes : Nat
deriving DecidableEq, Repr

/-- Evaluation wrapped into the threaded search state. -/
def evalIn (f : GameState → ℚ) (st : GameState) (σ : SearchSt) : XF × SearchSt :=
  let r := evaluateState f st σ.hcache
  (.fin r.1, { σ with hcache := r.2 })

/-- The chance-layer tile outcomes `[(2, 0.9), (4, 0.1)]` (lines 158 and 233). -/
def tileOutcomes : List (Nat × ℚ) := [(2, 9/10), (4, 1/10)]

/-- The body of the chance-node loop (lines 156-163 and 232-238): for each
empty cell and each tile outcome, place the tile on a copy and accumulate
`probability * childValue / emptyCount`, threading the search state through
the recursive MAX calls (`next` is the MAX layer one level deeper). -/
def chanceAccum (next : GameState → SearchSt → XF × SearchSt)
    (st : GameState) (empty : List (Nat × Nat)) (σ : SearchSt) : XF × SearchSt :=
  empty.foldl
    (fun acc ij =>
      tileOutcomes.foldl
        (fun acc2 tp =>
          let ns := placeTile st ij.1 ij.2 tp.1
          let r := next ns acc2.2
          (XF.add acc2.1 (XF.divNat (XF.scale tp.2 r.1) empty.length), r.2))
        acc)
    (.fin 0, σ)

/-- The direction loop of `_expectimax_max` (lines 182-187): try each
direction, skip unchanged boards, recurse into the chance layer (`next`),
and fold the running maximum together with the `moves_possible` flag. -/
def emMaxGo (next : GameState → SearchSt → XF × SearchSt) (st : GameState) :
    List Direction → XF × Bool × SearchSt → XF × Bool × SearchSt
  | [], acc => acc
  | dir :: rest, acc =>
    match simulateMove st dir with
    | none => emMaxGo next st rest acc
    | some ns =>
      if ns.board ≠ st.board then
        let r := next ns acc.2.2
        emMaxGo next st rest (XF.max acc.1 r.1, true, r.2)
      else
        emMaxGo next st rest acc

/-- `_expectimax_chance` / `_expectimax_max` (lines 144-196), fused over the
layer flag so that the recursion is structural on the depth (the two Python
methods call each other at `depth - 1`; `isMax = true` is the MAX layer).
Time-limit checks are modelled as never firing. -/
def emStep (f : GameState → ℚ) : Nat → Bool → GameState → SearchSt → XF × SearchSt
  | 0, _, st, σ => evalIn f st σ
  | d + 1, false, st, σ =>
    let empty := getEmptyCells st
    match empty with
    | [] => evalIn f st σ
    | e :: es => chanceAccum (fun ns σ2 => emStep f d true ns σ2) st (e :: es) σ
  | d + 1, true, st, σ =>
    match alookup σ.cache st.board with
    | some v => (v, σ)
    | none =>
      let r := emMaxGo (fun ns σ2 => emStep f d false ns σ2) st directionList
        (.negInf, false, σ)
      let final :=
        if r.2.1 then (r.1, r.2.2)
        else evalIn f st r.2.2
      (final.1,
        { final.2 with
          cache := (st.board, final.1) :: final.2.cache
          nodes := final.2.nodes + 1 })

/-- The root direction loop of `_expectimax_decision` (lines 129-140): keep
the first strictly best expected value (`value > best_value`).  The time-limit
break (lines 139-140) never fires in this model. -/
def emDecisionGo (f : GameState → ℚ) (maxDepth : Nat) (st : GameState) :
    List Direction → Option Direction × XF × SearchSt →
      Option Direction × XF × SearchSt
  | [], acc => acc
  | dir :: rest, acc =>
    match simulateMove st dir with
    | none => emDecisionGo f maxDepth st rest acc
    | some ns =>
      if ns.board ≠ st.board then
        let r := emStep f (maxDepth - 1) false ns acc.2.2
        if XF.lt acc.2.1 r.1 then emDecisionGo f maxDepth st rest (some dir, r.1, r.2)
        else emDecisionGo f maxDepth st rest (acc.1, acc.2.1, r.2)
      else emDecisionGo f maxDepth st rest acc

/-- `_expectimax_decision` (lines 122-142). -/
def emDecision (f : GameState → ℚ) (maxDepth : Nat) (st : GameState)
    (σ : SearchSt) : Option Direction × SearchSt :=
  let r := emDecisionGo f maxDepth st directionList (none, .negInf, σ)
  (r.1, r.2.2)

/-- The direction loop of `_alpha_beta_max` (lines 256-266): like the
Expectimax loop but carrying `alpha`/`beta` and breaking when `beta <= alpha`
after updating `alpha`. -/
def abMaxGo (next : GameState → SearchSt → XF → XF → XF × SearchSt)
    (st : GameState) (beta : XF) :
    List Direction → XF × Bool × XF × SearchSt → XF × Bool × XF × SearchSt
  | [], acc => acc
  | dir :: rest, acc =>
    match simulateMove st dir with
    | none => abMaxGo next st beta rest acc
    | some ns =>
      if ns.board ≠ st.board then
        let r := next ns acc.2.2.2 acc.2.2.1 beta
        let maxv := XF.max acc.1 r.1
        let alpha := XF.max acc.2.2.1 r.1
        if XF.le beta alpha then (maxv, true, alpha, r.2)
        else abMaxGo next st beta rest (maxv, true, alpha, r.2)
      else
        abMaxGo next st beta rest acc

/-- `_alpha_beta_chance` / `_alpha_beta_max` (lines 222-274), fused over the
layer flag as for `emStep`.  The chance layer carries the bounds through to
its MAX children unchanged and does not prune (line 240). -/
def abStep (f : GameState → ℚ) :
    Nat → Bool → GameState → SearchSt → XF → XF → XF × SearchSt
  | 0, _, st, σ, _, _ => evalIn f st σ
  | d + 1, false, st, σ, alpha, beta =>
    let empty := getEmptyCells st
    match empty with
    | [] => evalIn f st σ
    | e :: es =>
      chanceAccum (fun ns σ2 => abStep f d true ns σ2 alpha beta) st (e :: es) σ
  | d + 1, true, st, σ, alpha, beta =>
    match alookup σ.cache st.board with
    | some v => (v, σ)
    | none =>
      let r := abMaxGo (fun ns σ2 a b => abStep f d false ns σ2 a b) st beta
        directionList (.negInf, false, alpha, σ)
      let final :=
        if r.2.1 then (r.1, r.2.2.2)
        else evalIn f st r.2.2.2
      (final.1,
        { final.2 with
          cache := (st.board, final.1) :: final.2.cache
          nodes := final.2.nodes + 1 })

/-- The root direction loop of `_alpha_beta_decision` (lines 207-218):
`alpha` is raised (line 215) only when a new strictly best value is found,
and is handed to the chance subtree of each later sibling. -/
def abDecisionGo (f : GameState → ℚ) (maxDepth : Nat) (st : GameState) :
    List Direction → Option Direction × XF × XF × SearchSt →
      Option Direction × XF × XF × SearchSt
  | [], acc => acc
  | dir :: rest, acc =>
    match simulateMove st dir with
    | none => abDecisionGo f maxDepth st rest acc
    | some ns =>
      if ns.board ≠ st.board then
        let r := abStep f (maxDepth - 1) false ns acc.2.2.2 acc.2.2.1 .posInf
        if XF.lt acc.2.1 r.1 then
          abDecisionGo f maxDepth st rest (some dir, r.1, XF.max acc.2.2.1 r.1, r.2)
        else abDecisionGo f maxDepth st rest (acc.1, acc.2.1, acc.2.2.1, r.2)
      else abDecisionGo f maxDepth st rest acc

/-- `_alpha_beta_decision` (lines 198-220): root loop with
`alpha = -inf, beta = +inf`. -/
def abDecision (f : GameState → ℚ) (maxDepth : Nat) (st : GameState)
    (σ : SearchSt) : Option Direction × SearchSt :=
  let r := abDecisionGo f maxDepth st directionList (none, .negInf, .negInf, σ)
  (r.1, r.2.2.2)

/-- The `MCTSNode` tree (lines 668-700): each node owns its state, visit
count, cumulative reward and children keyed by direction.  Parent
back-references are realised by path-based backpropagation. -/
inductive MTree where
  | mk (state : GameState) (visits : Nat) (reward : ℚ)
      (children : List (Direction × MTree))

def MTree.state : MTree → GameState
  | .mk s _ _ _ => s

def MTree.visits : MTree → Nat
  | .mk _ v _ _ => v

def MTree.reward : MTree → ℚ
  | .mk _ _ r _ => r

def MTree.children : MTree → List (Direction × MTree)
  | .mk _ _ _ c => c

/-- `MCTSNode.expand` (lines 682-690): one child per direction that changes
the board, created in the fixed iteration order. -/
def expandChildren (st : GameState) : List (Direction × MTree) :=
  directionList.filterMap
    (fun d => (simulateMove st d).map (fun ns => (d, MTree.mk ns 0 0 [])))

/-- A chooser abstracting `max(node.children.values(), key=ucb1_value)` in
`_mcts_select` (lines 620-622): UCB1 (lines 692-700) involves real-valued
`sqrt`/`log`, so the selected child is given by an arbitrary index function;
every theorem below holds for every chooser. -/
abbrev ChildChooser := List (Direction × MTree) → Nat

/-- The descent loop of `_mcts_select` (lines 618-623): walk down to a leaf,
recording the chosen direction at each level.  `fuel` bounds the descent and
is always instantiated above the tree height (each simulation adds at most
one level, and the run performs `sims` simulations), so it never runs out. -/
def selectPath (choose : ChildChooser) : Nat → MTree → List Direction
  | 0, _ => []
  | fuel + 1, t =>
    match t.children with
    | [] => []
    | c :: cs =>
      let all := c :: cs
      let p := all.getD (choose all % all.length) c
      p.1 :: selectPath choose fuel p.2

/-- The node reached by a selection path. -/
def nodeAt : MTree → List Direction → MTree
  | t, [] => t
  | t, d :: p =>
    match alookup t.children d with
    | some c => nodeAt c p
    | none => t

/-- Update the child stored under direction `d` (children keys are distinct,
being created by one `expand` pass over the direction order). -/
def updateChild (cs : List (Direction × MTree)) (d : Direction)
    (g : MTree → MTree) : List (Direction × MTree) :=
  cs.map (fun p => if p.1 = d then (p.1, g p.2) else p)

/-- `node.expand()` applied at the end of a selection path. -/
def expandAt : MTree → List Direction → MTree
  | .mk s v r _, [] => .mk s v r (expandChildren s)
  | .mk s v r cs, d :: p => .mk s v r (updateChild cs d (expandAt · p))

/-- `_mcts_backpropagate` (lines 654-659): every node from the simulated
node up to the root gains one visit and the reward. -/
def backprop (reward : ℚ) : MTree → List Direction → MTree
  | .mk s v r cs, [] => .mk s (v + 1) (r + reward) cs
  | .mk s v r cs, d :: p =>
    .mk s (v + 1) (r + reward) (updateChild cs d (backprop reward · p))

/-- `_add_random_tile` (lines 661-666): one oracle draw picks the empty cell
(`random.choice`), a second decides 2 vs 4 (`random.random() < 0.9`).
Returns the new state and the advanced oracle counter. -/
def addRandomTile (rnd : Nat → Nat) (k : Nat) (st : GameState) :
    GameState × Nat :=
  match getEmptyCells st with
  | [] => (st, k)
  | e :: es =>
    let all := e :: es
    let ij := all.getD (rnd k % all.length) e
    let v := if rnd (k + 1) % 10 < 9 then 2 else 4
    (placeTile st ij.1 ij.2 v, k + 2)

/-- `_mcts_simulate` (lines 629-652): random rollout for up to 100 plies.
Each iteration collects the legal directions (pairing each with the
deterministic `_simulate_move` result, which the source recomputes after the
draw), picks one by an oracle draw, applies it, adds a random tile, and
continues; with no legal direction the loop breaks and the state is
evaluated. -/
def mctsSimulate (f : GameState → ℚ) (rnd : Nat → Nat) :
    Nat → GameState → Nat → HCache → ℚ × Nat × HCache
  | 0, st, k, hc =>
    let r := evaluateState f st hc
    (r.1, k, r.2)
  | fuel + 1, st, k, hc =>
    match directionList.filterMap
        (fun d => (simulateMove st d).map (fun ns => (d, ns))) with
    | [] =>
      let r := evaluateState f st hc
      (r.1, k, r.2)
    | l :: ls =>
      let all := l :: ls
      let p := all.getD (rnd k % all.length) l
      let r := addRandomTile rnd (k + 1) p.2
      mctsSimulate f rnd fuel r.1 r.2 hc

/-- One iteration of the MCTS loop (lines 282-293): selection, expansion of a
previously visited leaf, simulation from the selected leaf, and
backpropagation along the selection path. -/
def mctsIter (f : GameState → ℚ) (choose : ChildChooser) (rnd : Nat → Nat)
    (fuel : Nat) (t : MTree) (k : Nat) (hc : HCache) : MTree × Nat × HCache :=
  let path := selectPath choose fuel t
  let node := nodeAt t path
  let t1 := if 0 < node.visits then expandAt t path else t
  let r := mctsSimulate f rnd 100 node.state k hc
  (backprop r.1 t1 path, r.2.1, r.2.2)

/-- `for _ in range(self.mcts_simulations)` (line 282); the time-limit break
(lines 283-284) never fires in this model. -/
def mctsLoop (f : GameState → ℚ) (choose : ChildChooser) (rnd : Nat → Nat)
    (fuel : Nat) : Nat → MTree × Nat × HCache → MTree × Nat × HCache
  | 0, acc => acc
  | n + 1, acc => mctsLoop f choose rnd fuel n (mctsIter f choose rnd fuel acc.1 acc.2.1 acc.2.2)

/-- The final move choice of `_mcts_decision` (lines 295-304): keep the first
root child whose visit count strictly exceeds the best so far (initially 0). -/
def mctsChoose (cs : List (Direction × MTree)) : Option Direction :=
  (cs.foldl
    (fun (acc : Option Direction × Nat) p =>
      if acc.2 < p.2.visits then (some p.1, p.2.visits) else acc)
    (none, 0)).1

/-- `_mcts_decision` (lines 276-304): run the simulations from a fresh root
holding the input state, then pick the most-visited root child. -/
def mctsDecision (f : GameState → ℚ) (choose : ChildChooser) (rnd : Nat → Nat)
    (sims : Nat) (st : GameState) (hc : HCache) :
    Option Direction × Nat × HCache :=
  let r := mctsLoop f choose rnd (sims + 1) sims (MTree.mk st 0 0 [], 0, hc)
  (mctsChoose r.1.children, r.2)

/-- The `AIAlgorithm` enum (lines 19-24). -/
inductive AIAlgorithm where
  | expectimax
  | alpha_beta
  | mcts
  | minimax
  | neural_heuristic
deriving DecidableEq, Repr

/-- The persistent fields of an `Advanced2048AI` instance (lines 73-99) that
the modelled claims observe. -/
structure Solver where
  algorithm : AIAlgorithm
  maxDepth : Nat
  difficulty : String
  mctsSimulations : Nat
  cache : TCache
  heuristicCache : HCache
  nodesEvaluated : Nat
deriving DecidableEq, Repr

/-- `Advanced2048AI.__init__` (lines 73-99): both caches start empty and the
MCTS simulation budget is 1000 for the expert difficulty, 500 otherwise
(line 84). -/
def mkAdvanced2048AI (algorithm : AIAlgorithm) (maxDepth : Nat)
    (difficulty : String) : Solver :=
  { algorithm := algorithm
    maxDepth := maxDepth
    difficulty := difficulty
    mctsSimulations := if difficulty = "expert" then 1000 else 500
    cache := []
    heuristicCache := []
    nodesEvaluated := 0 }

/-- The `algo_map` of `create_ai_solver` (lines 705-711). -/
def algoMap : List (String × AIAlgorithm) :=
  [("expectimax", .expectimax), ("alpha_beta", .alpha_beta),
   ("monte_carlo", .mcts), ("minimax", .minimax), ("neural", .neural_heuristic)]

/-- The `depth_map` of `create_ai_solver` (lines 713-718). -/
def depthMap : List (String × Nat) :=
  [("easy", 3), ("normal", 4), ("hard", 5), ("expert", 6)]

/-- `create_ai_solver` (lines 703-724): dict `.get` falls back to Expectimax
for unrecognized algorithm names and to depth 6 for unrecognized
difficulties. -/
def createAISolver (algorithm difficulty : String) : Solver :=
  mkAdvanced2048AI ((alookup algoMap algorithm).getD .expectimax)
    ((alookup depthMap difficulty).getD 6) difficulty

/-- Lines 105-107 of `get_best_move`: `nodes_evaluated` is reset and
`self.cache` is cleared before dispatching (`self.heuristic_cache` is not
touched; `start_time` is wall-clock bookkeeping outside this model). -/
def searchStart (s : Solver) : Solver :=
  { s with cache := [], nodesEvaluated := 0 }

/-- Pack the threaded search bookkeeping back into the solver object. -/
def writeBack (s : Solver) (σ : SearchSt) : Solver :=
  { s with cache := σ.cache, heuristicCache := σ.hcache, nodesEvaluated := σ.nodes }

/-- `get_best_move` (lines 101-120).  The MINIMAX and NEURAL_HEURISTIC
branches call `self._minimax_decision` / `self._neural_heuristic_decision`,
methods that are defined nowhere in the class, so those selections raise
`AttributeError`; they are modelled as `Except.error`. -/
def getBestMove (f : GameState → ℚ) (choose : ChildChooser) (rnd : Nat → Nat)
    (s : Solver) (st : GameState) : Except String (Option Direction) × Solver :=
  let s := searchStart s
  let σ : SearchSt := ⟨s.cache, s.heuristicCache, s.nodesEvaluated⟩
  match s.algorithm with
  | .expectimax =>
    let r := emDecision f s.maxDepth st σ
    (.ok r.1, writeBack s r.2)
  | .alpha_beta =>
    let r := abDecision f s.maxDepth st σ
    (.ok r.1, writeBack s r.2)
  | .mcts =>
    let r := mctsDecision f choose rnd s.mctsSimulations st σ.hcache
    (.ok r.1, { s with heuristicCache := r.2.2 })
  | .minimax =>
    (.error "AttributeError: Advanced2048AI object has no attribute _minimax_decision", s)
  | .neural_heuristic =>
    (.error "AttributeError: Advanced2048AI object has no attribute _neural_heuristic_decision", s)

namespace App

/-- `AISolver._move_and_merge_array_ai` (app.py lines 769-787): drop zeros,
merge adjacent equal pairs left-to-right (no score tracking), pad with zeros
to the input length. -/
def mergeArrayTiles : List Nat → List Nat
  | [] => []
  | [a] => [a]
  | a :: b :: t =>
    if a = b then a * 2 :: mergeArrayTiles t
    else a :: mergeArrayTiles (b :: t)

/-- `AISolver._move_and_merge_array_ai` (app.py lines 769-787). -/
def moveAndMergeArrayAI (array : List Nat) : List Nat :=
  let filtered := array.filter (· ≠ 0)
  let result := mergeArrayTiles filtered
  result ++ List.replicate (array.length - result.length) 0

/-- `GameEngine._move_and_merge_array` (app.py lines 249-271): the same merge
loop, but the doubled value of each merge is added to the engine score, and
padding is to the engine size.  Returns the new array and the score gained. -/
def engineMergeArray (size : Nat) (array : List Nat) : List Nat × Nat :=
  let filtered := array.filter (· ≠ 0)
  let r := mergeTiles filtered
  (r.1 ++ List.replicate (size - r.1.length) 0, r.2)

/-- `AISolver._get_empty_cells_from_board` (app.py lines 789-799). -/
def emptyCellsB (b : Board) : List (Nat × Nat) :=
  (List.range b.length).flatMap (fun i =>
    (List.range b.length).filterMap (fun j =>
      if (b.getD i []).getD j 0 = 0 then some (i, j) else none))

/-- `AISolver._place_tile` (app.py lines 801-805): a deep copy with one cell
set. -/
def placeTileB (b : Board) (row col v : Nat) : Board :=
  b.set row ((b.getD row []).set col v)

/-- `AISolver._boards_equal` (app.py lines 807-816): cell-wise comparison over
the square of `len(board1)`. -/
def boardsEqual (b1 b2 : Board) : Bool :=
  (List.range b1.length).all (fun i =>
    (List.range b1.length).all (fun j =>
      (b1.getD i []).getD j 0 = (b2.getD i []).getD j 0))

/-- `AISolver._simulate_move_left` (app.py lines 749-756). -/
def simMoveLeft (b : Board) : Board := b.map moveAndMergeArrayAI

/-- `AISolver._simulate_move_right` (app.py lines 758-767). -/
def simMoveRight (b : Board) : Board :=
  b.map (fun row => (moveAndMergeArrayAI row.reverse).reverse)

/-- `AISolver._simulate_move_up` (app.py lines 721-732). -/
def simMoveUp (b : Board) : Board :=
  (List.range b.length).foldl
    (fun b col =>
      let column := (List.range b.length).map (fun r => (b.getD r []).getD col 0)
      let newCol := moveAndMergeArrayAI column
      (List.range b.length).foldl
        (fun b r => b.set r ((b.getD r []).set col (newCol.getD r 0))) b)
    b

/-- `AISolver._simulate_move_down` (app.py lines 734-747). -/
def simMoveDown (b : Board) : Board :=
  (List.range b.length).foldl
    (fun b col =>
      let column := (List.range b.length).map (fun r => (b.getD r []).getD col 0)
      let newCol := (moveAndMergeArrayAI column.reverse).reverse
      (List.range b.length).foldl
        (fun b r => b.set r ((b.getD r []).set col (newCol.getD r 0))) b)
    b

/-- `AISolver._simulate_move` (app.py lines 705-719): deep-copy (value
semantics here) and dispatch. -/
def appSimulateMove (b : Board) (d : Direction) : Board :=
  match d with
  | .up => simMoveUp b
  | .down => simMoveDown b
  | .left => simMoveLeft b
  | .right => simMoveRight b

/-- `AISolver._get_possible_moves_from_board` (app.py lines 691-703): the
directions (in iteration order) whose simulated board differs, paired with
the moved board. -/
def getPossibleMoves (b : Board) : List (Direction × Board) :=
  directionList.filterMap (fun d =>
    let nb := appSimulateMove b d
    if boardsEqual b nb then none else some (d, nb))

/-- The `AISolver.evaluation_cache` (app.py line 459), keyed by
`_get_board_key` and modelled by the board. -/
abbrev AppCache := List (Board × ℚ)

/-- `AISolver._evaluate_board` (app.py lines 549-579).  The five weighted
heuristic factors (lines 559-572) use real-valued `pow`, and are abstracted as
the parameter `g`; the memoization — including the clear-when-full guard at
`max_cache_size = 10000` (lines 575-577) — is embedded exactly. -/
def evaluateBoard (g : Board → ℚ) (b : Board) (c : AppCache) : ℚ × AppCache :=
  match alookup c b with
  | some v => (v, c)
  | none =>
    let v := g b
    let c1 := if 10000 ≤ c.length then [] else c
    (v, (b, v) :: c1)

/-- `AISolver._expectimax` (app.py lines 512-547): depth-0 and dead-end states
are evaluated; the MAX layer maximizes over the possible moves; the CHANCE
layer accumulates `(probability / total_cells) * childValue` over every empty
cell and both tile outcomes.  The evaluation cache is threaded. -/
def appExpectimax (g : Board → ℚ) : Nat → Board → Bool → AppCache → XF × AppCache
  | 0, b, _, c =>
    let r := evaluateBoard g b c
    (.fin r.1, r.2)
  | d + 1, b, true, c =>
    match getPossibleMoves b with
    | [] =>
      let r := evaluateBoard g b c
      (.fin r.1, r.2)
    | m :: ms =>
      (m :: ms).foldl
        (fun (acc : XF × AppCache) mv =>
          let r := appExpectimax g d mv.2 false acc.2
          (XF.max acc.1 r.1, r.2))
        (.negInf, c)
  | d + 1, b, false, c =>
    match emptyCellsB b with
    | [] =>
      let r := evaluateBoard g b c
      (.fin r.1, r.2)
    | e :: es =>
      let total := (e :: es).length
      (e :: es).foldl
        (fun (acc : XF × AppCache) ij =>
          tileOutcomes.foldl
            (fun (acc2 : XF × AppCache) tp =>
              let nb := placeTileB b ij.1 ij.2 tp.1
              let r := appExpectimax g d nb true acc2.2
              (XF.add acc2.1 (XF.scale (tp.2 / total) r.1), r.2))
            acc)
        (.fin 0, c)

end App

namespace HeapModel

/-!
An explicit-heap rendering of the advanced solver, used to verify the frame
property: Python game states are mutable objects, `GameState.copy` allocates a
fresh object, and the in-place `_move_*` methods mutate whatever object they
are handed.  Heaps are lists of states, references are indices, and every
embedded operation threads the heap, so "the caller's state object is never
mutated" becomes a provable statement rather than an artifact of purity.
-/

abbrev Heap := List GameState

def emptyState : GameState := ⟨[], 0, 0⟩

def readRef (h : Heap) (r : Nat) : GameState := h.getD r emptyState

def writeRef (h : Heap) (r : Nat) (st : GameState) : Heap := h.set r st

/-- `GameState.copy` (lines 39-44): allocate a fresh object with the same
contents. -/
def allocCopy (h : Heap) (r : Nat) : Nat × Heap := (h.length, h ++ [readRef h r])

/-- The in-place `_move_left/right/up/down` mutation applied to the object
held by `r`. -/
def hMove (d : Direction) (h : Heap) (r : Nat) : Bool × Heap :=
  let m :=
    match d with
    | .left => moveLeft (readRef h r)
    | .right => moveRight (readRef h r)
    | .up => moveUp (readRef h r)
    | .down => moveDown (readRef h r)
  (m.1, writeRef h r m.2)

/-- `_simulate_move` (lines 466-479): copy first, mutate only the copy,
return the copy's reference when it moved (the copy is allocated either
way). -/
def hSimulateMove (h : Heap) (r : Nat) (d : Direction) : Option Nat × Heap :=
  let a := allocCopy h r
  let m := hMove d a.2 a.1
  (if m.1 then some a.1 else none, m.2)

/-- Lines 159-160 / 234-235: `new_state = state.copy();
new_state.board[i][j] = tile_value`. -/
def hPlaceCopy (h : Heap) (r : Nat) (i j v : Nat) : Nat × Heap :=
  let a := allocCopy h r
  (a.1, writeRef a.2 a.1 (placeTile (readRef a.2 a.1) i j v))

/-- Heap version of the chance-node loop (lines 156-163 / 232-238). -/
def hChanceAccum (next : Nat → Heap → SearchSt → XF × Heap × SearchSt)
    (r : Nat) (empty : List (Nat × Nat)) (h : Heap) (σ : SearchSt) :
    XF × Heap × SearchSt :=
  empty.foldl
    (fun acc ij =>
      tileOutcomes.foldl
        (fun acc2 tp =>
          let p := hPlaceCopy acc2.2.1 r ij.1 ij.2 tp.1
          let rr := next p.1 p.2 acc2.2.2
          (XF.add acc2.1 (XF.divNat (XF.scale tp.2 rr.1) empty.length), rr.2))
        acc)
    (.fin 0, h, σ)

/-- Heap version of the `_expectimax_max` direction loop (lines 182-187). -/
def hEmMaxGo (next : Nat → Heap → SearchSt → XF × Heap × SearchSt) (r : Nat) :
    List Direction → XF × Bool × Heap × SearchSt → XF × Bool × Heap × SearchSt
  | [], acc => acc
  | dir :: rest, acc =>
    let sm := hSimulateMove acc.2.2.1 r dir
    match sm.1 with
    | none => hEmMaxGo next r rest (acc.1, acc.2.1, sm.2, acc.2.2.2)
    | some rn =>
      if (readRef sm.2 rn).board ≠ (readRef sm.2 r).board then
        let rr := next rn sm.2 acc.2.2.2
        hEmMaxGo next r rest (XF.max acc.1 rr.1, true, rr.2.1, rr.2.2)
      else hEmMaxGo next r rest (acc.1, acc.2.1, sm.2, acc.2.2.2)

/-- Heap version of `emStep` (lines 144-196). -/
def hEmStep (f : GameState → ℚ) :
    Nat → Bool → Nat → Heap → SearchSt → XF × Heap × SearchSt
  | 0, _, r, h, σ =>
    let e := evalIn f (readRef h r) σ
    (e.1, h, e.2)
  | d + 1, false, r, h, σ =>
    match getEmptyCells (readRef h r) with
    | [] =>
      let e := evalIn f (readRef h r) σ
      (e.1, h, e.2)
    | e :: es => hChanceAccum (fun rn hn σn => hEmStep f d true rn hn σn) r (e :: es) h σ
  | d + 1, true, r, h, σ =>
    match alookup σ.cache (readRef h r).board with
    | some v => (v, h, σ)
    | none =>
      let g := hEmMaxGo (fun rn hn σn => hEmStep f d false rn hn σn) r directionList
        (.negInf, false, h, σ)
      let final :=
        if g.2.1 then (g.1, g.2.2.2)
        else
          let e := evalIn f (readRef g.2.2.1 r) g.2.2.2
          (e.1, e.2)
      (final.1, g.2.2.1,
        { final.2 with
          cache := ((readRef g.2.2.1 r).board, final.1) :: final.2.cache
          nodes := final.2.nodes + 1 })

/-- The root direction loop of `_expectimax_decision` (lines 128-140),
threading the heap. -/
def hEmDecisionGo (step : Nat → Heap → SearchSt → XF × Heap × SearchSt)
    (r : Nat) : List Direction → Option Direction × XF × Heap × SearchSt →
      Option Direction × XF × Heap × SearchSt
  | [], acc => acc
  | dir :: rest, acc =>
    let sm := hSimulateMove acc.2.2.1 r dir
    match sm.1 with
    | none => hEmDecisionGo step r rest (acc.1, acc.2.1, sm.2, acc.2.2.2)
    | some rn =>
      if (readRef sm.2 rn).board ≠ (readRef sm.2 r).board then
        let rr := step rn sm.2 acc.2.2.2
        if XF.lt acc.2.1 rr.1 then
          hEmDecisionGo step r rest (some dir, rr.1, rr.2)
        else hEmDecisionGo step r rest (acc.1, acc.2.1, rr.2)
      else hEmDecisionGo step r rest (acc.1, acc.2.1, sm.2, acc.2.2.2)

/-- Heap version of `_expectimax_decision` (lines 122-142). -/
def hEmDecision (f : GameState → ℚ) (maxDepth : Nat) (r : Nat) (h : Heap)
    (σ : SearchSt) : Option Direction × Heap × SearchSt :=
  let g := hEmDecisionGo (fun rn hn σn => hEmStep f (maxDepth - 1) false rn hn σn)
    r directionList (none, .negInf, h, σ)
  (g.1, g.2.2)

/-- Heap version of the `_alpha_beta_max` direction loop (lines 256-266). -/
def hAbMaxGo (next : Nat → Heap → SearchSt → XF → XF → XF × Heap × SearchSt)
    (r : Nat) (beta : XF) :
    List Direction → XF × Bool × XF × Heap × SearchSt →
      XF × Bool × XF × Heap × SearchSt
  | [], acc => acc
  | dir :: rest, acc =>
    let sm := hSimulateMove acc.2.2.2.1 r dir
    match sm.1 with
    | none => hAbMaxGo next r beta rest (acc.1, acc.2.1, acc.2.2.1, sm.2, acc.2.2.2.2)
    | some rn =>
      if (readRef sm.2 rn).board ≠ (readRef sm.2 r).board then
        let rr := next rn sm.2 acc.2.2.2.2 acc.2.2.1 beta
        let maxv := XF.max acc.1 rr.1
        let alpha := XF.max acc.2.2.1 rr.1
        if XF.le beta alpha then (maxv, true, alpha, rr.2)
        else hAbMaxGo next r beta rest (maxv, true, alpha, rr.2)
      else hAbMaxGo next r beta rest (acc.1, acc.2.1, acc.2.2.1, sm.2, acc.2.2.2.2)

/-- Heap version of `abStep` (lines 222-274). -/
def hAbStep (f : GameState → ℚ) :
    Nat → Bool → Nat → Heap → SearchSt → XF → XF → XF × Heap × SearchSt
  | 0, _, r, h, σ, _, _ =>
    let e := evalIn f (readRef h r) σ
    (e.1, h, e.2)
  | d + 1, false, r, h, σ, alpha, beta =>
    match getEmptyCells (readRef h r) with
    | [] =>
      let e := evalIn f (readRef h r) σ
      (e.1, h, e.2)
    | e :: es =>
      hChanceAccum (fun rn hn σn => hAbStep f d true rn hn σn alpha beta) r (e :: es) h σ
  | d + 1, true, r, h, σ, alpha, beta =>
    match alookup σ.cache (readRef h r).board with
    | some v => (v, h, σ)
    | none =>
      let g := hAbMaxGo (fun rn hn σn a b => hAbStep f d false rn hn σn a b) r beta
        directionList (.negInf, false, alpha, h, σ)
      let final :=
        if g.2.1 then (g.1, g.2.2.2.2)
        else
          let e := evalIn f (readRef g.2.2.2.1 r) g.2.2.2.2
          (e.1, e.2)
      (final.1, g.2.2.2.1,
        { final.2 with
          cache := ((readRef g.2.2.2.1 r).board, final.1) :: final.2.cache
          nodes := final.2.nodes + 1 })

/-- The root direction loop of `_alpha_beta_decision` (lines 204-218),
threading the heap. -/
def hAbDecisionGo (step : Nat → Heap → SearchSt → XF → XF × Heap × SearchSt)
    (r : Nat) : List Direction → Option Direction × XF × XF × Heap × SearchSt →
      Option Direction × XF × XF × Heap × SearchSt
  | [], acc => acc
  | dir :: rest, acc =>
    let sm := hSimulateMove acc.2.2.2.1 r dir
    match sm.1 with
    | none => hAbDecisionGo step r rest (acc.1, acc.2.1, acc.2.2.1, sm.2, acc.2.2.2.2)
    | some rn =>
      if (readRef sm.2 rn).board ≠ (readRef sm.2 r).board then
        let rr := step rn sm.2 acc.2.2.2.2 acc.2.2.1
        if XF.lt acc.2.1 rr.1 then
          hAbDecisionGo step r rest (some dir, rr.1, XF.max acc.2.2.1 rr.1, rr.2)
        else hAbDecisionGo step r rest (acc.1, acc.2.1, acc.2.2.1, rr.2)
      else hAbDecisionGo step r rest (acc.1, acc.2.1, acc.2.2.1, sm.2, acc.2.2.2.2)

/-- Heap version of `_alpha_beta_decision` (lines 198-220). -/
def hAbDecision (f : GameState → ℚ) (maxDepth : Nat) (r : Nat) (h : Heap)
    (σ : SearchSt) : Option Direction × Heap × SearchSt :=
  let g := hAbDecisionGo
    (fun rn hn σn alpha => hAbStep f (maxDepth - 1) false rn hn σn alpha .posInf)
    r directionList (none, .negInf, .negInf, h, σ)
  (g.1, g.2.2.2)

/-- MCTS tree over heap references (`MCTSNode.state` is an object
reference; in particular the root aliases the caller's state object,
lines 280 and 671-677). -/
inductive HTree where
  | mk (stateRef : Nat) (visits : Nat) (reward : ℚ)
      (children : List (Direction × HTree))

def HTree.stateRef : HTree → Nat
  | .mk r _ _ _ => r

def HTree.visits : HTree → Nat
  | .mk _ v _ _ => v

def HTree.children : HTree → List (Direction × HTree)
  | .mk _ _ _ c => c

abbrev HChooser := List (Direction × HTree) → Nat

/-- The direction scan of `MCTSNode.expand` (lines 684-688). -/
def hExpandGo (r : Nat) : List Direction → List (Direction × HTree) × Heap →
    List (Direction × HTree) × Heap
  | [], acc => acc
  | d :: rest, acc =>
    let sm := hSimulateMove acc.2 r d
    match sm.1 with
    | some rn => hExpandGo r rest (acc.1 ++ [(d, HTree.mk rn 0 0 [])], sm.2)
    | none => hExpandGo r rest (acc.1, sm.2)

/-- Heap version of `MCTSNode.expand` (lines 682-690). -/
def hExpandChildren (h : Heap) (r : Nat) : List (Direction × HTree) × Heap :=
  hExpandGo r directionList ([], h)

/-- Heap version of `selectPath`. -/
def hSelectPath (choose : HChooser) : Nat → HTree → List Direction
  | 0, _ => []
  | fuel + 1, t =>
    match t.children with
    | [] => []
    | c :: cs =>
      let all := c :: cs
      let p := all.getD (choose all % all.length) c
      p.1 :: hSelectPath choose fuel p.2

def hNodeAt : HTree → List Direction → HTree
  | t, [] => t
  | t, d :: p =>
    match alookup t.children d with
    | some c => hNodeAt c p
    | none => t

def hUpdateChild : List (Direction × HTree) → Direction →
    (HTree → Heap → HTree × Heap) → Heap → List (Direction × HTree) × Heap
  | [], _, _, h => ([], h)
  | c :: cs, d, g, h =>
    if c.1 = d then
      let r := g c.2 h
      let rest := hUpdateChild cs d g r.2
      ((c.1, r.1) :: rest.1, rest.2)
    else
      let rest := hUpdateChild cs d g h
      (c :: rest.1, rest.2)

def hExpandAt : HTree → List Direction → Heap → HTree × Heap
  | .mk r v w _, [], h =>
    let e := hExpandChildren h r
    (.mk r v w e.1, e.2)
  | .mk r v w cs, d :: p, h =>
    let u := hUpdateChild cs d (fun t hh => hExpandAt t p hh) h
    (.mk r v w u.1, u.2)

def hBackprop (reward : ℚ) : HTree → List Direction → HTree
  | .mk s v w cs, [] => .mk s (v + 1) (w + reward) cs
  | .mk s v w cs, d :: p =>
    .mk s (v + 1) (w + reward) (updateChildH cs d (hBackprop reward · p))
where
  updateChildH (cs : List (Direction × HTree)) (d : Direction)
      (g : HTree → HTree) : List (Direction × HTree) :=
    cs.map (fun p => if p.1 = d then (p.1, g p.2) else p)

/-- The rollout's legal-move scan (lines 634-640): try all four directions
from `r`, collecting the (direction, fresh copy reference) pairs that
moved. -/
def hMctsScan (r : Nat) : List Direction → List (Direction × Nat) × Heap →
    List (Direction × Nat) × Heap
  | [], acc => acc
  | d :: rest, acc =>
    let sm := hSimulateMove acc.2 r d
    match sm.1 with
    | some rn => hMctsScan r rest (acc.1 ++ [(d, rn)], sm.2)
    | none => hMctsScan r rest (acc.1, sm.2)

/-- Heap version of `_mcts_simulate` (lines 629-652): each iteration scans the
four directions (allocating a copy per scan, as the source does), draws one of
the legal (direction, reference) pairs — the source recomputes the
deterministic `_simulate_move` after the draw, producing a copy with the same
contents, so the scanned reference is reused — then mutates the fresh state
with a random tile. -/
def hMctsSimulate (f : GameState → ℚ) (rnd : Nat → Nat) :
    Nat → Nat → Heap → Nat → HCache → ℚ × Heap × Nat × HCache
  | 0, r, h, k, hc =>
    let e := evaluateState f (readRef h r) hc
    (e.1, h, k, e.2)
  | fuel + 1, r, h, k, hc =>
    let scan := hMctsScan r directionList ([], h)
    match scan.1 with
    | [] =>
      let e := evaluateState f (readRef scan.2 r) hc
      (e.1, scan.2, k, e.2)
    | l :: ls =>
      let all := l :: ls
      let p := all.getD (rnd k % all.length) l
      let a := addRandomTile rnd (k + 1) (readRef scan.2 p.2)
      hMctsSimulate f rnd fuel p.2 (writeRef scan.2 p.2 a.1) a.2 hc

/-- Heap version of one MCTS iteration (lines 282-293); the rollout starts
from a fresh copy of the selected node's state (line 631). -/
def hMctsIter (f : GameState → ℚ) (choose : HChooser) (rnd : Nat → Nat)
    (fuel : Nat) (t : HTree) (h : Heap) (k : Nat) (hc : HCache) :
    HTree × Heap × Nat × HCache :=
  let path := hSelectPath choose fuel t
  let node := hNodeAt t path
  let e := if 0 < node.visits then hExpandAt t path h else (t, h)
  let c := allocCopy e.2 node.stateRef
  let r := hMctsSimulate f rnd 100 c.1 c.2 k hc
  (hBackprop r.1 e.1 path, r.2)

def hMctsLoop (f : GameState → ℚ) (choose : HChooser) (rnd : Nat → Nat)
    (fuel : Nat) : Nat → HTree × Heap × Nat × HCache → HTree × Heap × Nat × HCache
  | 0, acc => acc
  | n + 1, acc =>
    hMctsLoop f choose rnd fuel n (hMctsIter f choose rnd fuel acc.1 acc.2.1 acc.2.2.1 acc.2.2.2)

def hMctsChoose (cs : List (Direction × HTree)) : Option Direction :=
  (cs.foldl
    (fun (acc : Option Direction × Nat) p =>
      if acc.2 < p.2.visits then (some p.1, p.2.visits) else acc)
    (none, 0)).1

/-- Heap version of `_mcts_decision` (lines 276-304): the root node holds the
caller's state reference itself (no copy). -/
def hMctsDecision (f : GameState → ℚ) (choose : HChooser) (rnd : Nat → Nat)
    (sims : Nat) (r : Nat) (h : Heap) (hc : HCache) :
    Option Direction × Heap × HCache :=
  let g := hMctsLoop f choose rnd (sims + 1) sims (HTree.mk r 0 0 [], h, 0, hc)
  (hMctsChoose g.1.children, g.2.1, g.2.2.2)

/-- Heap version of `get_best_move` (lines 101-120): the caller's state object
is `r` in `h`. -/
def hGetBestMove (f : GameState → ℚ) (choose : HChooser) (rnd : Nat → Nat)
    (s : Solver) (h : Heap) (r : Nat) :
    Except String (Option Direction) × Heap × Solver :=
  let s := searchStart s
  let σ : SearchSt := ⟨s.cache, s.heuristicCache, s.nodesEvaluated⟩
  match s.algorithm with
  | .expectimax =>
    let g := hEmDecision f s.maxDepth r h σ
    (.ok g.1, g.2.1, writeBack s g.2.2)
  | .alpha_beta =>
    let g := hAbDecision f s.maxDepth r h σ
    (.ok g.1, g.2.1, writeBack s g.2.2)
  | .mcts =>
    let g := hMctsDecision f choose rnd s.mctsSimulations r h σ.hcache
    (.ok g.1, g.2.1, { s with heuristicCache := g.2.2 })
  | .minimax =>
    (.error "AttributeError: Advanced2048AI object has no attribute _minimax_decision", h, s)
  | .neural_heuristic =>
    (.error "AttributeError: Advanced2048AI object has no attribute _neural_heuristic_decision", h, s)

/-- Heap `h2` extends heap `h`: it is at least as long and agrees with `h` on
every pre-existing reference.  A search step satisfies the frame property when
it sends every heap to an extension of it: objects alive before the call keep
their contents. -/
def Ext (h h2 : Heap) : Prop :=
  h.length ≤ h2.length ∧ ∀ i, i < h.length → readRef h2 i = readRef h i

end HeapModel

/-! Spec-side helper definitions used to state the claims, and concrete
fixtures used by witnesses. -/

/-- The finite value of a float (0 for the infinities, which never occur where
this is used; finiteness is asserted separately). -/
def XF.q : XF → ℚ
  | .fin v => v
  | _ => 0

/-- The probability-weighted total accumulated by the advanced solver's chance
loop (`_expectimax_chance`, lines 156-163): for each empty cell in order, a 2
(probability 9/10) and a 4 (probability 1/10) are placed on a copy and the MAX
layer one level deeper is invoked, threading the mutable search state (the
transposition cache, the heuristic cache and the node counter) through the
recursive calls; each child value is weighted by probability / emptyCount. -/
def emChanceSum (f : GameState → ℚ) (d : Nat) (st : GameState) (n : Nat) :
    List (Nat × Nat) → SearchSt → ℚ
  | [], _ => 0
  | ij :: rest, σ =>
    let r2 := emStep f d true (placeTile st ij.1 ij.2 2) σ
    let r4 := emStep f d true (placeTile st ij.1 ij.2 4) r2.2
    9 / 10 / (n : ℚ) * XF.q r2.1 + 1 / 10 / (n : ℚ) * XF.q r4.1
      + emChanceSum f d st n rest r4.2

/-- The highest visit count among a list of root children. -/
def maxVisits (cs : List (Direction × MTree)) : Nat :=
  cs.foldr (fun p m => Nat.max p.2.visits m) 0

/-- A transposition cache whose stored values are all finite (true of every
cache the solver ever builds: only finite evaluation results are stored). -/
def CacheFin (c : TCache) : Prop :=
  ∀ k v, alookup c k = some v → v.isFin = true

/-- An app-solver evaluation cache that is consistent with the evaluator `g`:
every stored entry records the evaluation of its own key.  Every cache
produced by `AISolver._evaluate_board` satisfies this. -/
def AppCacheWF (g : Board → ℚ) (c : App.AppCache) : Prop :=
  ∀ k v, alookup c k = some v → v = g k

/-- The root invariant of an MCTS run from state `st`: the root keeps
holding `st`, and its children sit, in the fixed iteration order, under a
subset of the directions that legally move `st`. -/
def RootInv (st : GameState) (t : MTree) : Prop :=
  t.state = st ∧ (t.children.map Prod.fst).Sublist (legalDirections st)

/-- Fixture: the constant-zero stand-in evaluator. -/
def wf0 : GameState → ℚ := fun _ => 0

/-- Fixture: the constant-one stand-in evaluator. -/
def wf1 : GameState → ℚ := fun _ => 1

/-- Fixture: the first-child chooser. -/
def wch0 : ChildChooser := fun _ => 0

/-- Fixture: the constant-zero randomness oracle. -/
def wrnd0 : Nat → Nat := fun _ => 0

/-- Fixture: a small 2x2 position with legal moves. -/
def wst2 : GameState := ⟨[[2, 0], [0, 0]], 0, 2⟩

/-- Fixture: a terminal 4x4 checkerboard (full, no adjacent equal tiles). -/
def wChecker : GameState :=
  ⟨[[2, 4, 2, 4], [4, 2, 4, 2], [2, 4, 2, 4], [4, 2, 4, 2]], 0, 4⟩

/-- Fixture: an expectimax solver with depth budget 1. -/
def wSolverE1 : Solver := mkAdvanced2048AI .expectimax 1 "expert"

/-- Fixture: the first-child chooser over heap trees. -/
def wchH : HeapModel.HChooser := fun _ => 0

/-! Theorems settling the claims. -/

/-- C9: applying LEFT to the board [[2,2,0,0],[0,0,0,0],[0,0,0,0],[0,0,0,0]]
with score 0 yields [[4,0,0,0],[0,0,0,0],[0,0,0,0],[0,0,0,0]], score 4, and
`changed = true`; the app-solver row operation agrees on the first row. -/
theorem C9_concrete_left_move :
    simulateMove ⟨[[2, 2, 0, 0], [0, 0, 0, 0], [0, 0, 0, 0], [0, 0, 0, 0]], 0, 4⟩ .left
      = some ⟨[[4, 0, 0, 0], [0, 0, 0, 0], [0, 0, 0, 0], [0, 0, 0, 0]], 4, 4⟩
    ∧ (moveLeft ⟨[[2, 2, 0, 0], [0, 0, 0, 0], [0, 0, 0, 0], [0, 0, 0, 0]], 0, 4⟩).1 = true
    ∧ App.moveAndMergeArrayAI [2, 2, 0, 0] = [4, 0, 0, 0] := by
  refine ⟨rfl, rfl, rfl⟩

/-- C2: selecting the MINIMAX algorithm — a name the factory recognizes — makes
`get_best_move` dispatch to the undefined method `_minimax_decision`, raising
`AttributeError` instead of returning a move; the factory's fallback for
unrecognized names (to Expectimax and depth 6) does work. -/
theorem C2_minimax_selection_raises :
    (createAISolver "minimax" "expert").algorithm = .minimax
    ∧ (getBestMove wf0 wch0 wrnd0 (createAISolver "minimax" "expert") wst2).1
        = .error "AttributeError: Advanced2048AI object has no attribute _minimax_decision"
    ∧ (createAISolver "bogus_algorithm" "bogus_difficulty").algorithm = .expectimax
    ∧ (createAISolver "bogus_algorithm" "bogus_difficulty").maxDepth = 6 := by
  refine ⟨rfl, rfl, rfl, rfl⟩

/-- C6 counterexample: the difficulty name "medium" is not in `depth_map`
("normal" is), so it resolves to the fallback depth 6, not the claimed 4. -/
theorem C6_counterexample_medium :
    (createAISolver "expectimax" "medium").maxDepth = 6
    ∧ (createAISolver "expectimax" "medium").maxDepth ≠ 4 := by
  refine ⟨rfl, by decide⟩

/-- C6 amended: difficulty resolution yields depth 3 for easy, 4 for normal,
5 for hard, 6 for expert, and the fallback 6 for any other name (including
"medium"); the MCTS simulation count is 1000 for expert and 500 for every
other difficulty string. -/
theorem C6_amended_difficulty_mapping (alg : String) :
    (createAISolver alg "easy").maxDepth = 3
    ∧ (createAISolver alg "normal").maxDepth = 4
    ∧ (createAISolver alg "hard").maxDepth = 5
    ∧ (createAISolver alg "expert").maxDepth = 6
    ∧ (createAISolver alg "medium").maxDepth = 6
    ∧ (createAISolver alg "expert").mctsSimulations = 1000
    ∧ ∀ diff, diff ≠ "expert" → (createAISolver alg diff).mctsSimulations = 500 := by
  refine ⟨rfl, rfl, rfl, rfl, rfl, rfl, ?_⟩
  intro diff hd
  simp [createAISolver, mkAdvanced2048AI, hd]

/-- C6 amended, witness at concrete difficulty names. -/
theorem C6_amended_witness :
    (createAISolver "expectimax" "easy").maxDepth = 3
    ∧ (createAISolver "expectimax" "easy").mctsSimulations = 500 :=
  ⟨(C6_amended_difficulty_mapping "expectimax").1,
   (C6_amended_difficulty_mapping "expectimax").2.2.2.2.2.2 "easy" (by decide)⟩

/-- C3 counterexample: the heuristic evaluation cache is not created fresh per
invocation.  Starting from a solver with empty caches, one `get_best_move`
invocation writes a heuristic entry for the board [[0,0],[2,0]]; the entry is
still present in the solver state with which a later invocation starts its
search (only `self.cache` is cleared at line 107), and an evaluation performed
by that later invocation returns the stale cached value 0 even when its
evaluator would compute 1. -/
theorem C3_counterexample_heuristic_cache_persists :
    wSolverE1.heuristicCache = []
    ∧ alookup ((getBestMove wf0 wch0 wrnd0 wSolverE1 wst2).2).heuristicCache
        [[0, 0], [2, 0]] = some 0
    ∧ alookup (searchStart ((getBestMove wf0 wch0 wrnd0 wSolverE1 wst2).2)).heuristicCache
        [[0, 0], [2, 0]] = some 0
    ∧ (evaluateState wf1 ⟨[[0, 0], [2, 0]], 0, 2⟩
        (searchStart ((getBestMove wf0 wch0 wrnd0 wSolverE1 wst2).2)).heuristicCache).1 = 0
    ∧ wf1 ⟨[[0, 0], [2, 0]], 0, 2⟩ = 1 := by
  refine ⟨rfl, rfl, rfl, rfl, rfl⟩

/-- C3 amended: at the start of each `get_best_move` invocation the
transposition cache is cleared — so the result and final state never depend on
transposition entries left by earlier invocations — but the heuristic
evaluation cache is per-solver and survives: the search starts with exactly
the heuristic cache the solver object already held. -/
theorem C3_amended_cache_lifecycle (f : GameState → ℚ) (choose : ChildChooser)
    (rnd : Nat → Nat) (s : Solver) (c : TCache) (st : GameState) :
    getBestMove f choose rnd { s with cache := c } st = getBestMove f choose rnd s st
    ∧ (searchStart s).cache = []
    ∧ (searchStart s).heuristicCache = s.heuristicCache := by
  refine ⟨rfl, rfl, rfl⟩

/-! Helper lemmas for the Alpha-Beta / Expectimax comparison (C1). -/

theorem foldl_inv {α β : Type} (P : β → Prop) (g : β → α → β)
    (hg : ∀ b a, P b → P (g b a)) :
    ∀ (l : List α) (b : β), P b → P (l.foldl g b) := by
  intro l
  induction l with
  | nil => intro b hb; exact hb
  | cons a t ih => intro b hb; exact ih (g b a) (hg b a hb)

theorem foldl_rel {α β γ : Type} (R : β → γ → Prop) (g1 : β → α → β)
    (g2 : γ → α → γ) (hg : ∀ b c a, R b c → R (g1 b a) (g2 c a)) :
    ∀ (l : List α) (b : β) (c : γ), R b c → R (l.foldl g1 b) (l.foldl g2 c) := by
  intro l
  induction l with
  | nil => intro b c hbc; exact hbc
  | cons a t ih => intro b c hbc; exact ih (g1 b a) (g2 c a) (hg b c a hbc)

theorem XF.isFin_ne_posInf {x : XF} (h : x.isFin = true) : x ≠ XF.posInf := by
  cases x <;> simp_all [XF.isFin]

theorem XF.le_posInf_false {x : XF} (h : x ≠ XF.posInf) :
    XF.le XF.posInf x = false := by
  cases x <;> simp_all [XF.le]

theorem XF.max_ne_posInf {a b : XF} (ha : a ≠ XF.posInf) (hb : b ≠ XF.posInf) :
    XF.max a b ≠ XF.posInf := by
  unfold XF.max
  split <;> assumption

theorem XF.max_fin_of_left {a b : XF} (ha : a = XF.negInf ∨ a.isFin = true)
    (hb : b.isFin = true) : (XF.max a b).isFin = true := by
  unfold XF.max
  split
  · exact hb
  · rcases ha with h | h
    · subst h; simp [XF.le] at *
    · exact h

theorem XF.scale_fin {p : ℚ} {x : XF} (h : x.isFin = true) :
    ((XF.scale p x).isFin) = true := by
  cases x <;> simp_all [XF.isFin, XF.scale]

theorem XF.divNat_fin {x : XF} {n : Nat} (h : x.isFin = true) :
    ((XF.divNat x n).isFin) = true := by
  cases x <;> simp_all [XF.isFin, XF.divNat]

theorem XF.add_fin {a b : XF} (ha : a.isFin = true) (hb : b.isFin = true) :
    ((XF.add a b).isFin) = true := by
  cases a <;> cases b <;> simp_all [XF.isFin, XF.add]

theorem CacheFin_nil : CacheFin [] := by
  intro k v h
  simp [alookup] at h

theorem CacheFin_cons {c : TCache} {k : Board} {v : XF}
    (hv : v.isFin = true) (hc : CacheFin c) : CacheFin ((k, v) :: c) := by
  intro k2 v2 h
  by_cases hk : k = k2
  · simp [alookup, hk] at h
    exact h ▸ hv
  · simp [alookup, hk] at h
    exact hc k2 v2 h

/-- Invariant of the Expectimax MAX-layer direction loop: finiteness of the
running maximum and of every cached value is preserved. -/
theorem emMaxGo_inv (next : GameState → SearchSt → XF × SearchSt) (st : GameState)
    (hnext : ∀ ns σ, CacheFin σ.cache →
      (next ns σ).1.isFin = true ∧ CacheFin (next ns σ).2.cache) :
    ∀ (l : List Direction) (maxv : XF) (mp : Bool) (σ : SearchSt),
      (maxv = XF.negInf ∨ maxv.isFin = true) → (mp = true → maxv.isFin = true) →
      CacheFin σ.cache →
      (let r := emMaxGo next st l (maxv, mp, σ)
       (r.1 = XF.negInf ∨ r.1.isFin = true) ∧ (r.2.1 = true → r.1.isFin = true)
         ∧ CacheFin r.2.2.cache) := by
  intro l
  induction l with
  | nil => intro maxv mp σ h1 h2 h3; exact ⟨h1, h2, h3⟩
  | cons dir rest ih =>
    intro maxv mp σ h1 h2 h3
    show (let r := emMaxGo next st (dir :: rest) (maxv, mp, σ); _)
    rw [emMaxGo]
    cases hsm : simulateMove st dir with
    | none => exact ih maxv mp σ h1 h2 h3
    | some ns =>
      by_cases hb : ns.board ≠ st.board
      · simp only [if_pos hb]
        have hn := hnext ns σ h3
        exact ih _ _ _ (Or.inr (XF.max_fin_of_left h1 hn.1))
          (fun _ => XF.max_fin_of_left h1 hn.1) hn.2
      · simp only [if_neg hb]
        exact ih maxv mp σ h1 h2 h3

/-- Every value the Expectimax layers return or cache is finite, provided the
incoming transposition cache holds only finite values. -/
theorem emStep_fin (f : GameState → ℚ) :
    ∀ (d : Nat) (m : Bool) (st : GameState) (σ : SearchSt), CacheFin σ.cache →
      (emStep f d m st σ).1.isFin = true ∧ CacheFin (emStep f d m st σ).2.cache := by
  intro d
  induction d with
  | zero =>
    intro m st σ hσ
    exact ⟨rfl, hσ⟩
  | succ d ih =>
    intro m st σ hσ
    cases m with
    | false =>
      rw [emStep]
      cases hempty : getEmptyCells st with
      | nil => exact ⟨rfl, hσ⟩
      | cons e es =>
        refine foldl_inv
          (fun acc : XF × SearchSt => acc.1.isFin = true ∧ CacheFin acc.2.cache)
          _ ?_ (e :: es) (XF.fin 0, σ) ⟨rfl, hσ⟩
        intro b ij hb
        refine foldl_inv
          (fun acc : XF × SearchSt => acc.1.isFin = true ∧ CacheFin acc.2.cache)
          _ ?_ tileOutcomes b hb
        intro b2 tp hb2
        have hn := ih true (placeTile st ij.1 ij.2 tp.1) b2.2 hb2.2
        exact ⟨XF.add_fin hb2.1 (XF.divNat_fin (XF.scale_fin hn.1)), hn.2⟩
    | true =>
      rw [emStep]
      cases hcache : alookup σ.cache st.board with
      | some v => exact ⟨hσ st.board v hcache, hσ⟩
      | none =>
        have hgo := emMaxGo_inv (fun ns σ2 => emStep f d false ns σ2) st
          (fun ns σ2 h => ih false ns σ2 h) directionList XF.negInf false σ
          (Or.inl rfl) (by intro h; cases h) hσ
        simp only at hgo ⊢
        set r := emMaxGo (fun ns σ2 => emStep f d false ns σ2) st directionList
          (XF.negInf, false, σ) with hr
        by_cases hmp : r.2.1 = true
        · have hfin := hgo.2.1 hmp
          simp only [hmp, if_true]
          exact ⟨hfin, CacheFin_cons hfin hgo.2.2⟩
        · simp only [Bool.not_eq_true] at hmp
          simp only [hmp, Bool.false_eq_true, if_false]
          exact ⟨rfl, CacheFin_cons rfl hgo.2.2⟩

/-- The Alpha-Beta MAX-layer direction loop computes the same running maximum,
`moves_possible` flag and search state as the Expectimax one whenever
`beta = +inf` and `alpha` is not `+inf` — which is the only configuration the
solver ever produces, since no layer ever lowers `beta` — because the
`beta <= alpha` cutoff can then never fire. -/
theorem abMaxGo_eq_emMaxGo
    (nextAb : GameState → SearchSt → XF → XF → XF × SearchSt)
    (nextEm : GameState → SearchSt → XF × SearchSt) (st : GameState)
    (hnext : ∀ ns σ a, CacheFin σ.cache → a ≠ XF.posInf →
      nextAb ns σ a XF.posInf = nextEm ns σ)
    (hfin : ∀ ns σ, CacheFin σ.cache →
      (nextEm ns σ).1.isFin = true ∧ CacheFin (nextEm ns σ).2.cache) :
    ∀ (l : List Direction) (maxv : XF) (mp : Bool) (alpha : XF) (σ : SearchSt),
      CacheFin σ.cache → alpha ≠ XF.posInf →
      (let a := abMaxGo nextAb st XF.posInf l (maxv, mp, alpha, σ)
       let e := emMaxGo nextEm st l (maxv, mp, σ)
       a.1 = e.1 ∧ a.2.1 = e.2.1 ∧ a.2.2.2 = e.2.2) := by
  intro l
  induction l with
  | nil => intro maxv mp alpha σ hσ ha; exact ⟨rfl, rfl, rfl⟩
  | cons dir rest ih =>
    intro maxv mp alpha σ hσ ha
    simp only [abMaxGo, emMaxGo]
    cases hsm : simulateMove st dir with
    | none => exact ih maxv mp alpha σ hσ ha
    | some ns =>
      by_cases hb : ns.board ≠ st.board
      · simp only [if_pos hb]
        rw [hnext ns σ alpha hσ ha]
        have hf := hfin ns σ hσ
        have halpha2 : XF.max alpha (nextEm ns σ).1 ≠ XF.posInf :=
          XF.max_ne_posInf ha (XF.isFin_ne_posInf hf.1)
        rw [XF.le_posInf_false halpha2]
        simp only [Bool.false_eq_true, if_false]
        exact ih _ true _ _ hf.2 halpha2
      · simp only [if_neg hb]
        exact ih maxv mp alpha σ hσ ha

/-- The Alpha-Beta layers coincide with the Expectimax layers whenever
`beta = +inf` and `alpha` is finite or `-inf`: the solver never lowers `beta`
below `+inf`, so the pruning test is inert. -/
theorem abStep_eq_emStep (f : GameState → ℚ) :
    ∀ (d : Nat) (m : Bool) (st : GameState) (σ : SearchSt) (alpha : XF),
      CacheFin σ.cache → alpha ≠ XF.posInf →
      abStep f d m st σ alpha XF.posInf = emStep f d m st σ := by
  intro d
  induction d with
  | zero => intro m st σ alpha hσ ha; rfl
  | succ d ih =>
    intro m st σ alpha hσ ha
    cases m with
    | false =>
      rw [abStep, emStep]
      cases hempty : getEmptyCells st with
      | nil => rfl
      | cons e es =>
        refine foldl_rel
          (fun b c : XF × SearchSt => b = c ∧ CacheFin c.2.cache)
          _ _ ?_ (e :: es) (XF.fin 0, σ) (XF.fin 0, σ) ⟨rfl, hσ⟩ |>.1
        intro b c ij hbc
        refine foldl_rel
          (fun b c : XF × SearchSt => b = c ∧ CacheFin c.2.cache)
          _ _ ?_ tileOutcomes b c hbc
        intro b2 c2 tp hbc2
        obtain ⟨heq, hcf⟩ := hbc2
        subst heq
        simp only [ih true (placeTile st ij.1 ij.2 tp.1) b2.2 alpha hcf ha]
        exact ⟨trivial, (emStep_fin f d true (placeTile st ij.1 ij.2 tp.1) b2.2 hcf).2⟩
    | true =>
      rw [abStep, emStep]
      cases hcache : alookup σ.cache st.board with
      | some v => rfl
      | none =>
        have hgo := abMaxGo_eq_emMaxGo
          (fun ns σ2 a b => abStep f d false ns σ2 a b)
          (fun ns σ2 => emStep f d false ns σ2) st
          (fun ns σ2 a h2 h3 => ih false ns σ2 a h2 h3)
          (fun ns σ2 h2 => emStep_fin f d false ns σ2 h2)
          directionList XF.negInf false alpha σ hσ ha
        simp only at hgo
        simp only [hgo.1, hgo.2.1, hgo.2.2]

/-- The Alpha-Beta root decision coincides with the Expectimax root decision
on any transposition cache holding only finite values (in particular on the
cleared cache every invocation starts from). -/
theorem abDecision_eq_emDecision (f : GameState → ℚ) (maxDepth : Nat)
    (st : GameState) (σ : SearchSt) (hσ : CacheFin σ.cache) :
    abDecision f maxDepth st σ = emDecision f maxDepth st σ := by
  have hgo : ∀ (l : List Direction) (best : Option Direction) (bestv alpha : XF)
      (σ2 : SearchSt), CacheFin σ2.cache → alpha ≠ XF.posInf →
      (let a := abDecisionGo f maxDepth st l (best, bestv, alpha, σ2)
       let e := emDecisionGo f maxDepth st l (best, bestv, σ2)
       a.1 = e.1 ∧ a.2.1 = e.2.1 ∧ a.2.2.2 = e.2.2) := by
    intro l
    induction l with
    | nil => intro best bestv alpha σ2 h2 h3; exact ⟨rfl, rfl, rfl⟩
    | cons dir rest ih =>
      intro best bestv alpha σ2 h2 h3
      simp only [abDecisionGo, emDecisionGo]
      cases hsm : simulateMove st dir with
      | none => exact ih best bestv alpha σ2 h2 h3
      | some ns =>
        by_cases hb : ns.board ≠ st.board
        · simp only [if_pos hb]
          rw [abStep_eq_emStep f (maxDepth - 1) false ns σ2 alpha h2 h3]
          have hf := emStep_fin f (maxDepth - 1) false ns σ2 h2
          by_cases hlt :
              XF.lt bestv (emStep f (maxDepth - 1) false ns σ2).1 = true
          · simp only [hlt, if_true]
            exact ih _ _ _ _ hf.2
              (XF.max_ne_posInf h3 (XF.isFin_ne_posInf hf.1))
          · simp only [Bool.not_eq_true] at hlt
            simp only [hlt, Bool.false_eq_true, if_false]
            exact ih best bestv alpha _ hf.2 h3
        · simp only [if_neg hb]
          exact ih best bestv alpha σ2 h2 h3
  have h := hgo directionList none XF.negInf XF.negInf σ hσ (by intro h; cases h)
  simp only at h
  unfold abDecision emDecision
  simp only [h.1, h.2.2]

/-- C1: for every board state, depth budget, evaluator and solver
configuration (with the time budget not exceeded, as modelled), the best move
reported by the Alpha-Beta decision procedure equals the best move reported by
the unpruned Expectimax decision procedure: since no layer ever lowers `beta`
from `+inf`, the `beta <= alpha` cutoff in the MAX layer never fires, so
pruning cannot change the chosen root direction. -/
theorem C1_alpha_beta_matches_expectimax (f : GameState → ℚ)
    (choose : ChildChooser) (rnd : Nat → Nat) (s : Solver) (st : GameState) :
    (getBestMove f choose rnd { s with algorithm := .alpha_beta } st).1
      = (getBestMove f choose rnd { s with algorithm := .expectimax } st).1 := by
  simp only [getBestMove, searchStart]
  rw [abDecision_eq_emDecision f s.maxDepth st _ CacheFin_nil]

/-! Helper lemmas for the terminal / legality properties (C4) and the MCTS
move-selection law (C7). -/

theorem foldl_inv_mem {α β : Type} (P : β → Prop) (g : β → α → β) :
    ∀ (l : List α), (∀ b a, a ∈ l → P b → P (g b a)) →
      ∀ b, P b → P (l.foldl g b) := by
  intro l
  induction l with
  | nil => intro _ b hb; exact hb
  | cons a t ih =>
    intro hg b hb
    exact ih (fun b2 a2 ha2 => hg b2 a2 (List.mem_cons_of_mem a ha2)) (g b a)
      (hg b a (List.mem_cons_self a t) hb)

theorem emDecisionGo_terminal (f : GameState → ℚ) (maxD : Nat) (st : GameState)
    (h : ∀ dir, simulateMove st dir = none) :
    ∀ (l : List Direction) acc, emDecisionGo f maxD st l acc = acc := by
  intro l
  induction l with
  | nil => intro acc; rfl
  | cons dir rest ih =>
    intro acc
    simp only [emDecisionGo, h dir]
    exact ih acc

theorem abDecisionGo_terminal (f : GameState → ℚ) (maxD : Nat) (st : GameState)
    (h : ∀ dir, simulateMove st dir = none) :
    ∀ (l : List Direction) acc, abDecisionGo f maxD st l acc = acc := by
  intro l
  induction l with
  | nil => intro acc; rfl
  | cons dir rest ih =>
    intro acc
    simp only [abDecisionGo, h dir]
    exact ih acc

theorem emDecisionGo_legal (f : GameState → ℚ) (maxD : Nat) (st : GameState) :
    ∀ (l : List Direction) (acc : Option Direction × XF × SearchSt),
      (∀ d, acc.1 = some d → (simulateMove st d).isSome = true) →
      ∀ d, (emDecisionGo f maxD st l acc).1 = some d →
        (simulateMove st d).isSome = true := by
  intro l
  induction l with
  | nil => intro acc hacc; exact hacc
  | cons dir rest ih =>
    intro acc hacc
    simp only [emDecisionGo]
    cases hsm : simulateMove st dir with
    | none => exact ih acc hacc
    | some ns =>
      by_cases hb : ns.board ≠ st.board
      · simp only [if_pos hb]
        by_cases hlt :
            XF.lt acc.2.1 (emStep f (maxD - 1) false ns acc.2.2).1 = true
        · simp only [hlt, if_true]
          refine ih _ ?_
          intro d hd
          simp only [Option.some.injEq] at hd
          rw [← hd, hsm]
          rfl
        · simp only [Bool.not_eq_true] at hlt
          simp only [hlt, Bool.false_eq_true, if_false]
          exact ih _ (fun d hd => hacc d hd)
      · simp only [if_neg hb]
        exact ih acc hacc

theorem abDecisionGo_legal (f : GameState → ℚ) (maxD : Nat) (st : GameState) :
    ∀ (l : List Direction) (acc : Option Direction × XF × XF × SearchSt),
      (∀ d, acc.1 = some d → (simulateMove st d).isSome = true) →
      ∀ d, (abDecisionGo f maxD st l acc).1 = some d →
        (simulateMove st d).isSome = true := by
  intro l
  induction l with
  | nil => intro acc hacc; exact hacc
  | cons dir rest ih =>
    intro acc hacc
    simp only [abDecisionGo]
    cases hsm : simulateMove st dir with
    | none => exact ih acc hacc
    | some ns =>
      by_cases hb : ns.board ≠ st.board
      · simp only [if_pos hb]
        by_cases hlt : XF.lt acc.2.1
            (abStep f (maxD - 1) false ns acc.2.2.2 acc.2.2.1 .posInf).1 = true
        · simp only [hlt, if_true]
          refine ih _ ?_
          intro d hd
          simp only [Option.some.injEq] at hd
          rw [← hd, hsm]
          rfl
        · simp only [Bool.not_eq_true] at hlt
          simp only [hlt, Bool.false_eq_true, if_false]
          exact ih _ (fun d hd => hacc d hd)
      · simp only [if_neg hb]
        exact ih acc hacc

theorem expandChildren_keys (st : GameState) :
    (expandChildren st).map Prod.fst = legalDirections st := by
  unfold expandChildren legalDirections
  have h : ∀ (l : List Direction),
      ((l.filterMap (fun d => (simulateMove st d).map
        (fun ns => (d, MTree.mk ns 0 0 [])))).map Prod.fst)
        = l.filter (fun d => (simulateMove st d).isSome) := by
    intro l
    induction l with
    | nil => rfl
    | cons a t ih =>
      cases hsm : simulateMove st a with
      | none => simp [List.filterMap_cons, List.filter_cons, hsm, ih]
      | some ns => simp [List.filterMap_cons, List.filter_cons, hsm, ih]
  exact h directionList

theorem updateChild_keys (cs : List (Direction × MTree)) (d : Direction)
    (g : MTree → MTree) :
    (updateChild cs d g).map Prod.fst = cs.map Prod.fst := by
  unfold updateChild
  rw [List.map_map]
  refine List.map_congr_left ?_
  intro p _
  by_cases hp : p.1 = d <;> simp [hp]

theorem backprop_state (r : ℚ) (t : MTree) (p : List Direction) :
    (backprop r t p).state = t.state := by
  cases t with
  | mk s v w cs => cases p <;> rfl

theorem backprop_keys (r : ℚ) (t : MTree) (p : List Direction) :
    (backprop r t p).children.map Prod.fst = t.children.map Prod.fst := by
  cases t with
  | mk s v w cs =>
    cases p with
    | nil => rfl
    | cons d rest => simp [backprop, MTree.children, updateChild_keys]

theorem expandAt_state (t : MTree) (p : List Direction) :
    (expandAt t p).state = t.state := by
  cases t with
  | mk s v w cs => cases p <;> rfl

theorem rootInv_expandAt {st : GameState} {t : MTree} (h : RootInv st t)
    (p : List Direction) : RootInv st (expandAt t p) := by
  obtain ⟨h1, h2⟩ := h
  cases t with
  | mk s v w cs =>
    cases p with
    | nil =>
      refine ⟨h1, ?_⟩
      have hs : s = st := h1
      simp only [expandAt, MTree.children, expandChildren_keys, hs]
      exact List.Sublist.refl _
    | cons d rest =>
      refine ⟨h1, ?_⟩
      simp only [expandAt, MTree.children, updateChild_keys]
      exact h2

theorem rootInv_backprop {st : GameState} {t : MTree} (h : RootInv st t)
    (r : ℚ) (p : List Direction) : RootInv st (backprop r t p) := by
  obtain ⟨h1, h2⟩ := h
  exact ⟨(backprop_state r t p).trans h1, (backprop_keys r t p) ▸ h2⟩

theorem rootInv_mctsIter (f : GameState → ℚ) (choose : ChildChooser)
    (rnd : Nat → Nat) (fuel : Nat) {st : GameState} {t : MTree} (k : Nat)
    (hc : HCache) (h : RootInv st t) :
    RootInv st (mctsIter f choose rnd fuel t k hc).1 := by
  unfold mctsIter
  simp only
  by_cases hv : 0 < (nodeAt t (selectPath choose fuel t)).visits
  · simp only [hv, if_true]
    exact rootInv_backprop (rootInv_expandAt h _) _ _
  · simp only [hv, if_false]
    exact rootInv_backprop h _ _

theorem rootInv_mctsLoop (f : GameState → ℚ) (choose : ChildChooser)
    (rnd : Nat → Nat) (fuel : Nat) {st : GameState} :
    ∀ (n : Nat) (t : MTree) (k : Nat) (hc : HCache), RootInv st t →
      RootInv st (mctsLoop f choose rnd fuel n (t, k, hc)).1 := by
  intro n
  induction n with
  | zero => intro t k hc h; exact h
  | succ n ih =>
    intro t k hc h
    rw [mctsLoop]
    exact ih _ _ _ (rootInv_mctsIter f choose rnd fuel k hc h)

theorem mctsChoose_mem :
    ∀ (cs : List (Direction × MTree)) (d : Direction),
      mctsChoose cs = some d → d ∈ cs.map Prod.fst := by
  intro cs
  have h := foldl_inv_mem
    (fun acc : Option Direction × Nat =>
      ∀ d, acc.1 = some d → d ∈ cs.map Prod.fst)
    (fun acc p => if acc.2 < p.2.visits then (some p.1, p.2.visits) else acc)
    cs ?_ (none, 0) ?_
  · intro d hd
    exact h d hd
  · intro b p hp hb
    by_cases hlt : b.2 < p.2.visits
    · simp only [hlt, if_true]
      intro d hd
      simp only [Option.some.injEq] at hd
      rw [← hd]
      exact List.mem_map_of_mem Prod.fst hp
    · simp only [hlt, if_false]
      exact hb
  · intro d hd
    cases hd

theorem legalDirections_nil {st : GameState}
    (h : ∀ dir, simulateMove st dir = none) : legalDirections st = [] := by
  unfold legalDirections directionList
  simp [List.filter, h]

/-- C4 counterexample: the claim quantifies over every algorithm, but on the
terminal 4x4 checkerboard the MINIMAX selection neither returns None nor a
direction — it raises (the dispatch target `_minimax_decision` does not
exist), an error. -/
theorem C4_counterexample_minimax_on_terminal :
    legalDirections wChecker = []
    ∧ (getBestMove wf0 wch0 wrnd0 (mkAdvanced2048AI .minimax 6 "expert") wChecker).1
        = .error "AttributeError: Advanced2048AI object has no attribute _minimax_decision" := by
  refine ⟨rfl, rfl⟩

/-- C4 amended: for the three algorithms that are actually implemented
(Expectimax, Alpha-Beta, MCTS), `get_best_move` returns None on every terminal
board (no direction changes the board), and any direction it does return is
legal: applying it to the input board changes the board. -/
theorem C4_amended_terminal_none_and_legality (f : GameState → ℚ)
    (choose : ChildChooser) (rnd : Nat → Nat) (s : Solver) (st : GameState)
    (halg : s.algorithm = .expectimax ∨ s.algorithm = .alpha_beta
      ∨ s.algorithm = .mcts) :
    ((∀ dir, simulateMove st dir = none) →
      (getBestMove f choose rnd s st).1 = .ok none)
    ∧ (∀ dir, (getBestMove f choose rnd s st).1 = .ok (some dir) →
        (simulateMove st dir).isSome = true) := by
  rcases halg with h | h | h
  · constructor
    · intro hterm
      simp only [getBestMove, searchStart, h, emDecision]
      rw [emDecisionGo_terminal f s.maxDepth st hterm]
    · intro dir hdir
      simp only [getBestMove, searchStart, h, emDecision] at hdir
      simp only [Except.ok.injEq] at hdir
      exact emDecisionGo_legal f s.maxDepth st directionList _
        (fun d hd => by cases hd) dir hdir
  · constructor
    · intro hterm
      simp only [getBestMove, searchStart, h, abDecision]
      rw [abDecisionGo_terminal f s.maxDepth st hterm]
    · intro dir hdir
      simp only [getBestMove, searchStart, h, abDecision] at hdir
      simp only [Except.ok.injEq] at hdir
      exact abDecisionGo_legal f s.maxDepth st directionList _
        (fun d hd => by cases hd) dir hdir
  · have hroot : RootInv st (mctsLoop f choose rnd (s.mctsSimulations + 1)
        s.mctsSimulations (MTree.mk st 0 0 [], 0, s.heuristicCache)).1 :=
      rootInv_mctsLoop f choose rnd (s.mctsSimulations + 1) s.mctsSimulations
        (MTree.mk st 0 0 []) 0 s.heuristicCache
        ⟨rfl, List.nil_sublist _⟩
    constructor
    · intro hterm
      simp only [getBestMove, searchStart, h, mctsDecision]
      have h2 := hroot.2
      rw [legalDirections_nil hterm] at h2
      have h3 := List.sublist_nil.mp h2
      have h4 := List.map_eq_nil_iff.mp h3
      rw [h4]
      rfl
    · intro dir hdir
      simp only [getBestMove, searchStart, h, mctsDecision] at hdir
      simp only [Except.ok.injEq] at hdir
      have hmem := mctsChoose_mem _ dir hdir
      have hsub := hroot.2.subset hmem
      simp only [legalDirections, List.mem_filter] at hsub
      exact hsub.2

/-- C4 amended, witness: Expectimax on the terminal checkerboard returns None,
and the direction Expectimax returns on a movable 2x2 board is legal. -/
theorem C4_amended_witness :
    (getBestMove wf0 wch0 wrnd0 (mkAdvanced2048AI .expectimax 6 "expert") wChecker).1
        = .ok none
    ∧ (simulateMove wst2 .down).isSome = true :=
  ⟨(C4_amended_terminal_none_and_legality wf0 wch0 wrnd0
      (mkAdvanced2048AI .expectimax 6 "expert") wChecker (Or.inl rfl)).1
      (by intro dir; cases dir <;> rfl),
   (C4_amended_terminal_none_and_legality wf0 wch0 wrnd0
      (mkAdvanced2048AI .expectimax 1 "expert") wst2 (Or.inl rfl)).2 .down rfl⟩

theorem le_maxVisits :
    ∀ (l : List (Direction × MTree)) q, q ∈ l → q.2.visits ≤ maxVisits l := by
  intro l
  induction l with
  | nil => intro q hq; cases hq
  | cons r t ih =>
    intro q hq
    rcases List.mem_cons.mp hq with h | h
    · rw [h]
      exact Nat.le_max_left _ _
    · exact Nat.le_trans (ih q h) (Nat.le_max_right _ _)

/-- The final MCTS move choice keeps the first root child attaining the
strictly highest visit count, provided some child was visited at all. -/
theorem mctsChoose_eq_findMax :
    ∀ (cs : List (Direction × MTree)) (b : Option Direction) (v : Nat),
      v < maxVisits cs →
      (cs.foldl (fun (acc : Option Direction × Nat) p =>
          if acc.2 < p.2.visits then (some p.1, p.2.visits) else acc) (b, v)).1
        = (cs.find? (fun p => p.2.visits == maxVisits cs)).map Prod.fst := by
  intro cs
  induction cs with
  | nil => intro b v hv; cases hv
  | cons p rest ih =>
    intro b v hv
    have hstay : ∀ (l : List (Direction × MTree)) (b2 : Option Direction)
        (v2 : Nat), (∀ q ∈ l, q.2.visits ≤ v2) →
        (l.foldl (fun (acc : Option Direction × Nat) q =>
          if acc.2 < q.2.visits then (some q.1, q.2.visits) else acc) (b2, v2))
          = (b2, v2) := by
      intro l
      induction l with
      | nil => intro b2 v2 _; rfl
      | cons q t iht =>
        intro b2 v2 hq
        have hle := hq q (List.mem_cons_self q t)
        simp only [List.foldl_cons, Nat.not_lt_of_le hle, if_false]
        exact iht b2 v2 (fun q2 hq2 => hq q2 (List.mem_cons_of_mem q hq2))
    have hmax : maxVisits (p :: rest) = Nat.max p.2.visits (maxVisits rest) := rfl
    by_cases hp : p.2.visits = maxVisits (p :: rest)
    · have hupd : v < p.2.visits := hp ▸ hv
      simp only [List.foldl_cons, hupd, if_true, List.find?]
      have hbeq : (p.2.visits == maxVisits (p :: rest)) = true := by
        simp [hp]
      rw [hbeq]
      have hrest : ∀ q ∈ rest, q.2.visits ≤ p.2.visits := by
        intro q hq
        rw [hp, hmax]
        exact Nat.le_trans (le_maxVisits rest q hq) (Nat.le_max_right _ _)
      rw [hstay rest (some p.1) p.2.visits hrest]
      rfl
    · have hne : maxVisits (p :: rest) = maxVisits rest := by
        rcases Nat.le_total p.2.visits (maxVisits rest) with h | h
        · rw [hmax]
          exact Nat.max_eq_right h
        · exact absurd (hmax.trans (Nat.max_eq_left h)).symm hp
      have hlt : p.2.visits < maxVisits (p :: rest) := by
        have hle : p.2.visits ≤ maxVisits (p :: rest) := hmax ▸ Nat.le_max_left _ _
        exact Nat.lt_of_le_of_ne hle hp
      have hbeq : (p.2.visits == maxVisits (p :: rest)) = false := by
        simp [hp]
      simp only [List.foldl_cons, List.find?, hbeq]
      by_cases hupd : v < p.2.visits
      · simp only [hupd, if_true]
        rw [ih (some p.1) p.2.visits (hne ▸ hlt), hne]
      · simp only [hupd, if_false]
        rw [ih b v (hne ▸ hv), hne]

theorem backprop_visits (r : ℚ) (t : MTree) (p : List Direction) :
    (backprop r t p).visits = t.visits + 1 := by
  cases t with
  | mk s v w cs => cases p <;> rfl

theorem selectPath_nil_children (choose : ChildChooser) (t : MTree)
    (h : t.children = []) : ∀ fuel, selectPath choose fuel t = [] := by
  intro fuel
  cases fuel with
  | zero => rfl
  | succ fuel =>
    unfold selectPath
    rw [h]

theorem getD_mem {α : Type} (l : List α) (i : Nat) (d : α) (hd : d ∈ l) :
    l.getD i d ∈ l := by
  rw [List.getD_eq_getElem?_getD]
  rcases h : l[i]? with _ | x
  · exact hd
  · exact List.getElem?_mem h

theorem selectPath_cons (choose : ChildChooser) {t : MTree}
    (h : t.children ≠ []) (fuel : Nat) (hf : 0 < fuel) :
    ∃ d rest, selectPath choose fuel t = d :: rest
      ∧ ∃ c, (d, c) ∈ t.children := by
  cases fuel with
  | zero => cases hf
  | succ fuel =>
    rcases hcs : t.children with _ | ⟨c, cs⟩
    · exact absurd hcs h
    · have hmem : (c :: cs).getD (choose (c :: cs) % (c :: cs).length) c ∈ c :: cs :=
        getD_mem _ _ _ (List.mem_cons_self c cs)
      refine ⟨((c :: cs).getD (choose (c :: cs) % (c :: cs).length) c).1,
        selectPath choose fuel ((c :: cs).getD (choose (c :: cs) % (c :: cs).length) c).2,
        ?_, ?_⟩
      · conv_lhs => rw [selectPath]
        rw [hcs]
      · exact ⟨((c :: cs).getD (choose (c :: cs) % (c :: cs).length) c).2,
          by rw [Prod.mk.eta]; exact hmem⟩

theorem maxVisits_pos_backprop {t : MTree} {d : Direction}
    (r : ℚ) (rest : List Direction) (hmem : ∃ c, (d, c) ∈ t.children) :
    0 < maxVisits ((backprop r t (d :: rest)).children) := by
  obtain ⟨c, hc⟩ := hmem
  cases t with
  | mk s v w cs =>
    simp only [backprop, MTree.children]
    have hmem2 : (d, backprop r c rest) ∈ updateChild cs d (backprop r · rest) := by
      have h := List.mem_map_of_mem
        (fun p : Direction × MTree =>
          if p.1 = d then (p.1, backprop r p.2 rest) else p) hc
      simpa [updateChild] using h
    have hle := le_maxVisits _ _ hmem2
    have hpos : 0 < (backprop r c rest).visits := by
      rw [backprop_visits]
      exact Nat.succ_pos _
    exact Nat.lt_of_lt_of_le hpos hle

theorem mctsIter_children_pos (f : GameState → ℚ) (choose : ChildChooser)
    (rnd : Nat → Nat) (fuel : Nat) (t : MTree) (k : Nat) (hc : HCache)
    (hf : 0 < fuel) (h : t.children ≠ []) :
    0 < maxVisits ((mctsIter f choose rnd fuel t k hc).1.children) := by
  obtain ⟨d, rest, hpath, c, hmem⟩ := selectPath_cons choose h fuel hf
  unfold mctsIter
  simp only [hpath]
  by_cases hv : 0 < (nodeAt t (d :: rest)).visits
  · rw [if_pos hv]
    refine maxVisits_pos_backprop _ rest ?_
    cases t with
    | mk s v w cs =>
      simp only [expandAt, MTree.children]
      have hkey : d ∈ (updateChild cs d (expandAt · rest)).map Prod.fst := by
        rw [updateChild_keys]
        exact List.mem_map_of_mem Prod.fst hmem
      obtain ⟨p, hp, hp1⟩ := List.mem_map.mp hkey
      refine ⟨p.2, ?_⟩
      have hdp : (d, p.2) = p := by
        rw [← hp1, Prod.mk.eta]
      rw [hdp]
      exact hp
  · rw [if_neg hv]
    exact maxVisits_pos_backprop _ rest ⟨c, hmem⟩

theorem maxVisits_pos_ne_nil {cs : List (Direction × MTree)}
    (h : 0 < maxVisits cs) : cs ≠ [] := by
  intro hnil
  rw [hnil] at h
  cases h

theorem mctsLoop_children_pos (f : GameState → ℚ) (choose : ChildChooser)
    (rnd : Nat → Nat) (fuel : Nat) (hf : 0 < fuel) :
    ∀ (n : Nat) (t : MTree) (k : Nat) (hc : HCache),
      0 < maxVisits t.children →
      0 < maxVisits ((mctsLoop f choose rnd fuel n (t, k, hc)).1.children) := by
  intro n
  induction n with
  | zero => intro t k hc h; exact h
  | succ n ih =>
    intro t k hc h
    rw [mctsLoop]
    exact ih _ _ _ (mctsIter_children_pos f choose rnd fuel t k hc hf
      (maxVisits_pos_ne_nil h))

/-- The first MCTS iteration on a fresh (unvisited, childless) root only
backpropagates: the root becomes visited and stays childless. -/
theorem mctsIter_fresh_root (f : GameState → ℚ) (choose : ChildChooser)
    (rnd : Nat → Nat) (fuel : Nat) (st : GameState) (k : Nat) (hc : HCache) :
    ((mctsIter f choose rnd fuel (MTree.mk st 0 0 []) k hc).1).state = st
    ∧ ((mctsIter f choose rnd fuel (MTree.mk st 0 0 []) k hc).1).visits = 1
    ∧ ((mctsIter f choose rnd fuel (MTree.mk st 0 0 []) k hc).1).children = [] := by
  unfold mctsIter
  rw [selectPath_nil_children choose (MTree.mk st 0 0 []) rfl fuel]
  exact ⟨rfl, rfl, rfl⟩

/-- The second MCTS iteration, on a visited childless root, expands the root:
its children become one node per legal direction. -/
theorem mctsIter_expands_visited_root (f : GameState → ℚ)
    (choose : ChildChooser) (rnd : Nat → Nat) (fuel : Nat) (st : GameState)
    (v : Nat) (w : ℚ) (k : Nat) (hc : HCache) (hv : 0 < v) :
    ((mctsIter f choose rnd fuel (MTree.mk st v w []) k hc).1).children
      = expandChildren st := by
  unfold mctsIter
  rw [selectPath_nil_children choose (MTree.mk st v w []) rfl fuel]
  simp only [nodeAt, MTree.visits, hv, if_true, expandAt, backprop]
  rfl

/-- On a non-terminal board, an MCTS run of at least 3 simulations always
leaves some root child visited. -/
theorem mctsLoop_visits_pos (f : GameState → ℚ) (choose : ChildChooser)
    (rnd : Nat → Nat) (sims : Nat) (st : GameState) (hc : HCache)
    (hterm : legalDirections st ≠ []) (hsims : 3 ≤ sims) :
    0 < maxVisits ((mctsLoop f choose rnd (sims + 1) sims
      (MTree.mk st 0 0 [], 0, hc)).1.children) := by
  obtain ⟨n, hn⟩ : ∃ n, sims = n + 3 := ⟨sims - 3, by omega⟩
  subst hn
  have hf : 0 < n + 3 + 1 := Nat.succ_pos _
  rw [show n + 3 = (n + 2) + 1 from rfl, mctsLoop]
  have h1 := mctsIter_fresh_root f choose rnd (n + 3 + 1) st 0 hc
  generalize hA : mctsIter f choose rnd (n + 3 + 1) (MTree.mk st 0 0 []) 0 hc
    = A at h1 ⊢
  obtain ⟨t1, k1, hc1⟩ := A
  obtain ⟨h1s, h1v, h1c⟩ := h1
  obtain ⟨s1, v1, w1, cs1⟩ := t1
  simp only [MTree.state] at h1s
  simp only [MTree.visits] at h1v
  simp only [MTree.children] at h1c
  subst h1s h1v h1c
  rw [show n + 2 = (n + 1) + 1 from rfl, mctsLoop]
  have h2 := mctsIter_expands_visited_root f choose rnd (n + 3 + 1) s1 1 w1 k1
    hc1 Nat.one_pos
  generalize hB : mctsIter f choose rnd (n + 3 + 1) (MTree.mk s1 1 w1 []) k1 hc1
    = B at h2 ⊢
  obtain ⟨t2, k2, hc2⟩ := B
  simp only at h2
  rw [mctsLoop]
  have ht2 : t2.children ≠ [] := by
    rw [h2]
    intro hnil
    have hkeys := congrArg (List.map Prod.fst) hnil
    rw [expandChildren_keys] at hkeys
    exact hterm hkeys
  exact mctsLoop_children_pos f choose rnd (n + 3 + 1) hf n _ _ _
    (mctsIter_children_pos f choose rnd (n + 3 + 1) t2 k2 hc2 hf ht2)

/-- C7: after the MCTS decision procedure finishes at least 3 simulations
(in particular the 500 or 1000 the solver always runs) on a non-terminal
board, the root children sit in the fixed iteration order UP, DOWN, LEFT,
RIGHT, and the direction returned is the first root child attaining the
strictly highest visit count (not the highest mean reward). -/
theorem C7_mcts_first_highest_visits (f : GameState → ℚ)
    (choose : ChildChooser) (rnd : Nat → Nat) (sims : Nat) (st : GameState)
    (hc : HCache) (hterm : legalDirections st ≠ []) (hsims : 3 ≤ sims) :
    (((mctsLoop f choose rnd (sims + 1) sims
        (MTree.mk st 0 0 [], 0, hc)).1.children.map Prod.fst).Sublist
      directionList)
    ∧ (mctsDecision f choose rnd sims st hc).1
        = ((mctsLoop f choose rnd (sims + 1) sims
            (MTree.mk st 0 0 [], 0, hc)).1.children.find?
            (fun p => p.2.visits == maxVisits ((mctsLoop f choose rnd (sims + 1)
              sims (MTree.mk st 0 0 [], 0, hc)).1.children))).map Prod.fst := by
  have hvis := mctsLoop_visits_pos f choose rnd sims st hc hterm hsims
  have hroot : RootInv st (mctsLoop f choose rnd (sims + 1) sims
      (MTree.mk st 0 0 [], 0, hc)).1 :=
    rootInv_mctsLoop f choose rnd (sims + 1) sims (MTree.mk st 0 0 []) 0 hc
      ⟨rfl, List.nil_sublist _⟩
  constructor
  · exact hroot.2.trans (List.filter_sublist _)
  · unfold mctsDecision
    exact mctsChoose_eq_findMax _ none 0 hvis

/-! Helper lemmas for the chance-layer formula of the app solver (C5). -/

theorem XF.fin_q {x : XF} (h : x.isFin = true) : XF.fin (XF.q x) = x := by
  cases x <;> simp_all [XF.isFin, XF.q]

theorem AppCacheWF_nil (g : Board → ℚ) : AppCacheWF g [] := by
  intro k v h
  simp [alookup] at h

theorem AppCacheWF_insert {g : Board → ℚ} {c : App.AppCache} {k : Board}
    (h : AppCacheWF g c) : AppCacheWF g ((k, g k) :: c) := by
  intro k2 v2 h2
  by_cases hk : k = k2
  · simp [alookup, hk] at h2
    exact h2.symm
  · simp [alookup, hk] at h2
    exact h k2 v2 h2

theorem evaluateBoard_val {g : Board → ℚ} {c : App.AppCache} (b : Board)
    (h : AppCacheWF g c) : (App.evaluateBoard g b c).1 = g b := by
  unfold App.evaluateBoard
  cases hl : alookup c b with
  | some v => exact h b v hl
  | none => rfl

theorem evaluateBoard_wf {g : Board → ℚ} {c : App.AppCache} (b : Board)
    (h : AppCacheWF g c) : AppCacheWF g (App.evaluateBoard g b c).2 := by
  unfold App.evaluateBoard
  cases hl : alookup c b with
  | some v => exact h
  | none =>
    by_cases hlen : 10000 ≤ c.length
    · simp only [hlen, if_true]
      exact AppCacheWF_insert (AppCacheWF_nil g)
    · simp only [hlen, if_false]
      exact AppCacheWF_insert h

/-- Every value the app-solver expectimax returns is a finite float. -/
theorem appExpectimax_isFin (g : Board → ℚ) :
    ∀ (d : Nat) (b : Board) (m : Bool) (c : App.AppCache),
      ((App.appExpectimax g d b m c).1).isFin = true := by
  intro d
  induction d with
  | zero => intro b m c; rfl
  | succ d ih =>
    intro b m c
    cases m with
    | true =>
      rw [App.appExpectimax]
      cases hpm : App.getPossibleMoves b with
      | nil => rfl
      | cons mv ms =>
        refine foldl_inv (fun acc : XF × App.AppCache => acc.1.isFin = true)
          _ ?_ ms _ ?_
        · intro b2 x hb2
          exact XF.max_fin_of_left (Or.inr hb2) (ih x.2 false b2.2)
        · exact XF.max_fin_of_left (Or.inl rfl) (ih mv.2 false c)
    | false =>
      rw [App.appExpectimax]
      cases hem : App.emptyCellsB b with
      | nil => rfl
      | cons e es =>
        refine foldl_inv (fun acc : XF × App.AppCache => acc.1.isFin = true)
          _ ?_ (e :: es) _ rfl
        intro b2 ij hb2
        refine foldl_inv (fun acc : XF × App.AppCache => acc.1.isFin = true)
          _ ?_ tileOutcomes b2 hb2
        intro b3 tp hb3
        exact XF.add_fin hb3 (XF.scale_fin (ih _ true b3.2))

/-- The app-solver expectimax preserves cache consistency, and its value does
not depend on which consistent cache it is run with (the cache key is the
whole board and every stored value is the evaluation of its key). -/
theorem appExpectimax_wf_val (g : Board → ℚ) :
    ∀ (d : Nat) (b : Board) (m : Bool) (c : App.AppCache), AppCacheWF g c →
      AppCacheWF g ((App.appExpectimax g d b m c).2)
      ∧ ∀ c2, AppCacheWF g c2 →
          (App.appExpectimax g d b m c).1 = (App.appExpectimax g d b m c2).1 := by
  intro d
  induction d with
  | zero =>
    intro b m c hc
    refine ⟨evaluateBoard_wf b hc, ?_⟩
    intro c2 hc2
    show XF.fin (App.evaluateBoard g b c).1 = XF.fin (App.evaluateBoard g b c2).1
    rw [evaluateBoard_val b hc, evaluateBoard_val b hc2]
  | succ d ih =>
    intro b m c hc
    cases m with
    | true =>
      rw [App.appExpectimax]
      cases hpm : App.getPossibleMoves b with
      | nil =>
        refine ⟨evaluateBoard_wf b hc, ?_⟩
        intro c2 hc2
        rw [App.appExpectimax, hpm]
        show XF.fin (App.evaluateBoard g b c).1 = XF.fin (App.evaluateBoard g b c2).1
        rw [evaluateBoard_val b hc, evaluateBoard_val b hc2]
      | cons mv ms =>
        constructor
        · refine foldl_inv (fun acc : XF × App.AppCache => AppCacheWF g acc.2)
            _ ?_ (mv :: ms) _ hc
          intro b2 x hb2
          exact (ih x.2 false b2.2 hb2).1
        · intro c2 hc2
          rw [App.appExpectimax, hpm]
          refine (foldl_rel
            (fun acc acc2 : XF × App.AppCache =>
              acc.1 = acc2.1 ∧ AppCacheWF g acc.2 ∧ AppCacheWF g acc2.2)
            _ _ ?_ (mv :: ms) (XF.negInf, c) (XF.negInf, c2) ⟨rfl, hc, hc2⟩).1
          intro b2 b3 x hb
          obtain ⟨h1, h2, h3⟩ := hb
          have hv := (ih x.2 false b2.2 h2).2 b3.2 h3
          simp only [h1, hv]
          exact ⟨trivial, (ih x.2 false b2.2 h2).1, (ih x.2 false b3.2 h3).1⟩
    | false =>
      rw [App.appExpectimax]
      cases hem : App.emptyCellsB b with
      | nil =>
        refine ⟨evaluateBoard_wf b hc, ?_⟩
        intro c2 hc2
        rw [App.appExpectimax, hem]
        show XF.fin (App.evaluateBoard g b c).1 = XF.fin (App.evaluateBoard g b c2).1
        rw [evaluateBoard_val b hc, evaluateBoard_val b hc2]
      | cons e es =>
        constructor
        · refine foldl_inv (fun acc : XF × App.AppCache => AppCacheWF g acc.2)
            _ ?_ (e :: es) _ hc
          intro b2 ij hb2
          refine foldl_inv (fun acc : XF × App.AppCache => AppCacheWF g acc.2)
            _ ?_ tileOutcomes b2 hb2
          intro b3 tp hb3
          exact (ih (App.placeTileB b ij.1 ij.2 tp.1) true b3.2 hb3).1
        · intro c2 hc2
          rw [App.appExpectimax, hem]
          refine (foldl_rel
            (fun acc acc2 : XF × App.AppCache =>
              acc.1 = acc2.1 ∧ AppCacheWF g acc.2 ∧ AppCacheWF g acc2.2)
            _ _ ?_ (e :: es) (XF.fin 0, c) (XF.fin 0, c2) ⟨rfl, hc, hc2⟩).1
          intro b2 b3 ij hb
          refine foldl_rel
            (fun acc acc2 : XF × App.AppCache =>
              acc.1 = acc2.1 ∧ AppCacheWF g acc.2 ∧ AppCacheWF g acc2.2)
            _ _ ?_ tileOutcomes b2 b3 hb
          intro b4 b5 tp hb45
          obtain ⟨h1, h2, h3⟩ := hb45
          have hv := (ih (App.placeTileB b ij.1 ij.2 tp.1) true b4.2 h2).2 b5.2 h3
          simp only [h1, hv]
          exact ⟨trivial, (ih (App.placeTileB b ij.1 ij.2 tp.1) true b4.2 h2).1,
            (ih (App.placeTileB b ij.1 ij.2 tp.1) true b5.2 h3).1⟩

theorem sum_map_const_q {α : Type} (l : List α) (q : ℚ) :
    (l.map (fun _ => q)).sum = l.length * q := by
  induction l with
  | nil => simp
  | cons a t ih =>
    simp only [List.map_cons, List.sum_cons, ih, List.length_cons]
    push_cast
    ring

/-- Accumulation lemma for the app-solver chance loop: starting from a running
total `q` and any consistent cache, the loop returns `q` plus the
probability-weighted sum of the MAX-layer child values (which are independent
of the threaded cache). -/
theorem appChanceFold (g : Board → ℚ) (d : Nat) (b : Board) (n : Nat)
    (c : App.AppCache) (hc : AppCacheWF g c) :
    ∀ (cells : List (Nat × Nat)) (q : ℚ) (c2 : App.AppCache), AppCacheWF g c2 →
      (cells.foldl (fun (acc : XF × App.AppCache) ij =>
        tileOutcomes.foldl (fun (acc2 : XF × App.AppCache) tp =>
          let nb := App.placeTileB b ij.1 ij.2 tp.1
          let r := App.appExpectimax g d nb true acc2.2
          (XF.add acc2.1 (XF.scale (tp.2 / n) r.1), r.2)) acc)
        (XF.fin q, c2)).1
      = XF.fin (q + (cells.map (fun ij => (tileOutcomes.map (fun tp =>
          (tp.2 / (n : ℚ))
            * XF.q ((App.appExpectimax g d (App.placeTileB b ij.1 ij.2 tp.1)
                true c).1))).sum)).sum) := by
  intro cells
  induction cells with
  | nil =>
    intro q c2 hc2
    simp
  | cons ij rest ih =>
    intro q c2 hc2
    rw [List.foldl_cons]
    have hv1 := (appExpectimax_wf_val g d (App.placeTileB b ij.1 ij.2 2) true
      c2 hc2).2 c hc
    have hw1 := (appExpectimax_wf_val g d (App.placeTileB b ij.1 ij.2 2) true
      c2 hc2).1
    have hv2 := (appExpectimax_wf_val g d (App.placeTileB b ij.1 ij.2 4) true
      _ hw1).2 c hc
    have hw2 := (appExpectimax_wf_val g d (App.placeTileB b ij.1 ij.2 4) true
      _ hw1).1
    have hf1 := appExpectimax_isFin g d (App.placeTileB b ij.1 ij.2 2) true c
    have hf2 := appExpectimax_isFin g d (App.placeTileB b ij.1 ij.2 4) true c
    obtain ⟨q1, hq1⟩ : ∃ x, (App.appExpectimax g d (App.placeTileB b ij.1 ij.2 2)
        true c).1 = XF.fin x := ⟨XF.q _, (XF.fin_q hf1).symm⟩
    obtain ⟨q2, hq2⟩ : ∃ x, (App.appExpectimax g d (App.placeTileB b ij.1 ij.2 4)
        true c).1 = XF.fin x := ⟨XF.q _, (XF.fin_q hf2).symm⟩
    have hstep : (tileOutcomes.foldl (fun (acc2 : XF × App.AppCache) tp =>
        let nb := App.placeTileB b ij.1 ij.2 tp.1
        let r := App.appExpectimax g d nb true acc2.2
        (XF.add acc2.1 (XF.scale (tp.2 / n) r.1), r.2)) (XF.fin q, c2))
      = (XF.fin (q + 9 / 10 / (n : ℚ) * q1 + 1 / 10 / (n : ℚ) * q2),
          (App.appExpectimax g d (App.placeTileB b ij.1 ij.2 4) true
            (App.appExpectimax g d (App.placeTileB b ij.1 ij.2 2) true c2).2).2) := by
      simp only [tileOutcomes, List.foldl_cons, List.foldl_nil]
      rw [hv1, hq1, hv2, hq2]
      simp only [XF.scale, XF.add]
    rw [hstep, ih _ _ hw2]
    simp only [List.map_cons, List.sum_cons, tileOutcomes, List.map_nil,
      List.sum_nil]
    rw [hq1, hq2]
    simp only [XF.q]
    congr 1
    ring

/-- Accumulation lemma for the advanced solver's chance loop
(`_expectimax_chance`, lines 156-163): starting from a running total `q` and a
finite-valued transposition cache, the loop returns `q` plus the
probability-weighted sum of the MAX-layer child values computed with the
threaded search state. -/
theorem emChanceFold (f : GameState → ℚ) (d : Nat) (st : GameState) (n : Nat) :
    ∀ (cells : List (Nat × Nat)) (q : ℚ) (σ : SearchSt), CacheFin σ.cache →
      (cells.foldl (fun (acc : XF × SearchSt) ij =>
        tileOutcomes.foldl (fun (acc2 : XF × SearchSt) tp =>
          let ns := placeTile st ij.1 ij.2 tp.1
          let r := emStep f d true ns acc2.2
          (XF.add acc2.1 (XF.divNat (XF.scale tp.2 r.1) n), r.2)) acc)
        (XF.fin q, σ)).1
      = XF.fin (q + emChanceSum f d st n cells σ) := by
  intro cells
  induction cells with
  | nil =>
    intro q σ hσ
    simp [emChanceSum]
  | cons ij rest ih =>
    intro q σ hσ
    rw [List.foldl_cons]
    have hf2 := emStep_fin f d true (placeTile st ij.1 ij.2 2) σ hσ
    have hf4 := emStep_fin f d true (placeTile st ij.1 ij.2 4)
      (emStep f d true (placeTile st ij.1 ij.2 2) σ).2 hf2.2
    obtain ⟨q2, hq2⟩ : ∃ x, (emStep f d true (placeTile st ij.1 ij.2 2) σ).1
        = XF.fin x := ⟨XF.q _, (XF.fin_q hf2.1).symm⟩
    obtain ⟨q4, hq4⟩ : ∃ x, (emStep f d true (placeTile st ij.1 ij.2 4)
        (emStep f d true (placeTile st ij.1 ij.2 2) σ).2).1
        = XF.fin x := ⟨XF.q _, (XF.fin_q hf4.1).symm⟩
    have hstep : (tileOutcomes.foldl (fun (acc2 : XF × SearchSt) tp =>
        let ns := placeTile st ij.1 ij.2 tp.1
        let r := emStep f d true ns acc2.2
        (XF.add acc2.1 (XF.divNat (XF.scale tp.2 r.1) n), r.2)) (XF.fin q, σ))
      = (XF.fin (q + 9 / 10 * q2 / (n : ℚ) + 1 / 10 * q4 / (n : ℚ)),
          (emStep f d true (placeTile st ij.1 ij.2 4)
            (emStep f d true (placeTile st ij.1 ij.2 2) σ).2).2) := by
      simp only [tileOutcomes, List.foldl_cons, List.foldl_nil]
      rw [hq2, hq4]
      simp only [XF.scale, XF.add, XF.divNat]
    rw [hstep, ih _ _ hf4.2]
    rw [emChanceSum]
    rw [hq2, hq4]
    simp only [XF.q]
    congr 1
    ring

/-- C5: in both solvers the chance layer at depth at least 1 on a board with
an empty cell computes the sum over every empty cell and both tile outcomes
(2 with probability 9/10, 4 with probability 1/10) of
`(probability / emptyCount) * maxLayerValue(board + tile, depth - 1)`, and on
a board with no empty cell it evaluates the board directly.  For the advanced
solver (`_expectimax_chance`) the MAX-layer child calls thread the mutable
search state in order, every child value is finite, and the probability
weights used total exactly 1; for the app solver (`AISolver._expectimax`) the
child values are additionally independent of the threaded evaluation cache,
every child value is finite, and the weights again total exactly 1. -/
theorem C5_chance_layer_formula (f : GameState → ℚ) (g : Board → ℚ) (d : Nat)
    (st : GameState) (σ : SearchSt) (b : Board) (c : App.AppCache)
    (hσ : CacheFin σ.cache) (hwf : AppCacheWF g c) :
    (getEmptyCells st = [] → emStep f (d + 1) false st σ = evalIn f st σ)
    ∧ (getEmptyCells st ≠ [] →
        (emStep f (d + 1) false st σ).1
          = XF.fin (emChanceSum f d st (getEmptyCells st).length
              (getEmptyCells st) σ)
        ∧ (∀ ij : Nat × Nat, ∀ tp : Nat, ∀ σ2 : SearchSt, CacheFin σ2.cache →
            ((emStep f d true (placeTile st ij.1 ij.2 tp) σ2).1).isFin = true)
        ∧ ((getEmptyCells st).map (fun _ => (tileOutcomes.map (fun tp =>
            tp.2 / ((getEmptyCells st).length : ℚ))).sum)).sum = 1)
    ∧ (App.emptyCellsB b = [] →
        App.appExpectimax g (d + 1) b false c
          = (XF.fin (App.evaluateBoard g b c).1, (App.evaluateBoard g b c).2))
    ∧ (App.emptyCellsB b ≠ [] →
        (App.appExpectimax g (d + 1) b false c).1
          = XF.fin (((App.emptyCellsB b).map (fun ij =>
              (tileOutcomes.map (fun tp =>
                (tp.2 / ((App.emptyCellsB b).length : ℚ))
                  * XF.q ((App.appExpectimax g d (App.placeTileB b ij.1 ij.2 tp.1)
                      true c).1))).sum)).sum)
        ∧ (∀ ij : Nat × Nat, ∀ tp : Nat,
            ((App.appExpectimax g d (App.placeTileB b ij.1 ij.2 tp) true c).1).isFin
              = true)
        ∧ ((App.emptyCellsB b).map (fun _ => (tileOutcomes.map (fun tp =>
            tp.2 / ((App.emptyCellsB b).length : ℚ))).sum)).sum = 1) := by
  refine ⟨?_, ?_, ?_, ?_⟩
  · intro h0
    rw [emStep, h0]
  · intro hne
    obtain ⟨e, es, hem⟩ : ∃ e es, getEmptyCells st = e :: es := by
      rcases h : getEmptyCells st with _ | ⟨e, es⟩
      · exact absurd h hne
      · exact ⟨e, es, rfl⟩
    rw [hem]
    refine ⟨?_, fun ij tp σ2 h2 => (emStep_fin f d true _ σ2 h2).1, ?_⟩
    · rw [emStep, hem]
      exact (emChanceFold f d st (e :: es).length (e :: es) 0 σ hσ).trans
        (by rw [zero_add])
    · have hlen : (((e :: es).length : Nat) : ℚ) ≠ 0 := by
        simp only [List.length_cons]
        push_cast
        positivity
      rw [sum_map_const_q]
      simp only [tileOutcomes, List.map_cons, List.map_nil, List.sum_cons,
        List.sum_nil]
      field_simp
      ring
  · intro h0
    rw [App.appExpectimax, h0]
  · intro hne
    obtain ⟨e, es, hem⟩ : ∃ e es, App.emptyCellsB b = e :: es := by
      rcases h : App.emptyCellsB b with _ | ⟨e, es⟩
      · exact absurd h hne
      · exact ⟨e, es, rfl⟩
    rw [hem]
    refine ⟨?_, fun ij tp => appExpectimax_isFin g d _ true c, ?_⟩
    · rw [App.appExpectimax, hem]
      exact (appChanceFold g d b (e :: es).length c hwf (e :: es) 0 c hwf).trans
        (by rw [zero_add])
    · have hlen : (((e :: es).length : Nat) : ℚ) ≠ 0 := by
        simp only [List.length_cons]
        push_cast
        positivity
      rw [sum_map_const_q]
      simp only [tileOutcomes, List.map_cons, List.map_nil, List.sum_cons,
        List.sum_nil]
      field_simp
      ring

/-- C5 witness: concrete instantiation on movable 2x2 boards for both solvers,
with evaluator stand-ins, the empty search state and the empty cache; the
hypotheses and both non-empty-branch premises are discharged concretely, and
both weight totals evaluate to 1. -/
theorem C5_witness :
    (CacheFin ([] : TCache) ∧ AppCacheWF (fun _ => (0 : ℚ)) []
      ∧ getEmptyCells wst2 ≠ [] ∧ App.emptyCellsB [[2, 0], [0, 0]] ≠ [])
    ∧ ((getEmptyCells wst2).map (fun _ => (tileOutcomes.map (fun tp =>
        tp.2 / ((getEmptyCells wst2).length : ℚ))).sum)).sum = 1
    ∧ ((App.emptyCellsB [[2, 0], [0, 0]]).map (fun _ => (tileOutcomes.map (fun tp =>
        tp.2 / ((App.emptyCellsB [[2, 0], [0, 0]]).length : ℚ))).sum)).sum = 1 :=
  ⟨⟨CacheFin_nil, AppCacheWF_nil _, by decide, by decide⟩,
   ((C5_chance_layer_formula wf0 (fun _ => 0) 1 wst2 ⟨[], [], 0⟩ [[2, 0], [0, 0]]
      [] CacheFin_nil (AppCacheWF_nil _)).2.1 (by decide)).2.2,
   ((C5_chance_layer_formula wf0 (fun _ => 0) 1 wst2 ⟨[], [], 0⟩ [[2, 0], [0, 0]]
      [] CacheFin_nil (AppCacheWF_nil _)).2.2.2 (by decide)).2.2⟩

/-! Helper lemmas for the merge conservation law (C10). -/

theorem mergeArrayTiles_sum : ∀ l : List Nat, (App.mergeArrayTiles l).sum = l.sum := by
  intro l
  induction l using App.mergeArrayTiles.induct with
  | case1 => rfl
  | case2 a => rfl
  | case3 b t ih =>
    rw [App.mergeArrayTiles, if_pos rfl]
    simp only [List.sum_cons, ih]
    omega
  | case4 a b t hab ih =>
    simp only [App.mergeArrayTiles, if_neg hab, List.sum_cons, ih]

theorem mergeArrayTiles_length_le :
    ∀ l : List Nat, (App.mergeArrayTiles l).length ≤ l.length := by
  intro l
  induction l using App.mergeArrayTiles.induct with
  | case1 => exact Nat.le_refl _
  | case2 a => exact Nat.le_refl _
  | case3 b t ih =>
    rw [App.mergeArrayTiles, if_pos rfl]
    simp only [List.length_cons]
    omega
  | case4 a b t hab ih =>
    simp only [App.mergeArrayTiles, if_neg hab, List.length_cons] at ih ⊢
    omega

theorem mergeTiles_sum : ∀ l : List Nat, (mergeTiles l).1.sum = l.sum := by
  intro l
  induction l using mergeTiles.induct with
  | case1 => rfl
  | case2 a => rfl
  | case3 b t ih =>
    rw [mergeTiles, if_pos rfl]
    simp only [List.sum_cons, ih]
    omega
  | case4 a b t hab ih =>
    simp only [mergeTiles, if_neg hab, List.sum_cons, ih]

theorem mergeTiles_length_le :
    ∀ l : List Nat, (mergeTiles l).1.length ≤ l.length := by
  intro l
  induction l using mergeTiles.induct with
  | case1 => exact Nat.le_refl _
  | case2 a => exact Nat.le_refl _
  | case3 b t ih =>
    rw [mergeTiles, if_pos rfl]
    simp only [List.length_cons]
    omega
  | case4 a b t hab ih =>
    simp only [mergeTiles, if_neg hab, List.length_cons] at ih ⊢
    omega

theorem filter_ne_zero_sum (l : List Nat) :
    (l.filter (· ≠ 0)).sum = l.sum := by
  induction l with
  | nil => rfl
  | cons a t ih =>
    rw [List.filter_cons]
    by_cases ha : a = 0
    · rw [if_neg (by simp [ha]), ih, ha, List.sum_cons]
      omega
    · rw [if_pos (by simp [ha]), List.sum_cons, List.sum_cons, ih]

theorem moveAndMergeArrayAI_length (l : List Nat) :
    (App.moveAndMergeArrayAI l).length = l.length := by
  unfold App.moveAndMergeArrayAI
  have h1 := mergeArrayTiles_length_le (l.filter (· ≠ 0))
  have h2 := List.length_filter_le (fun x => decide (x ≠ 0)) l
  simp only [List.length_append, List.length_replicate]
  omega

theorem moveAndMergeArrayAI_sum (l : List Nat) :
    (App.moveAndMergeArrayAI l).sum = l.sum := by
  unfold App.moveAndMergeArrayAI
  rw [List.sum_append, mergeArrayTiles_sum, filter_ne_zero_sum]
  simp

theorem rowOpLeft_sum (size : Nat) (row : List Nat) :
    (rowOpLeft size row).1.sum = row.sum := by
  unfold rowOpLeft
  rw [List.sum_append, mergeTiles_sum, filter_ne_zero_sum]
  simp

theorem rowOpLeft_length (size : Nat) (row : List Nat) (h : row.length ≤ size) :
    (rowOpLeft size row).1.length = size := by
  unfold rowOpLeft
  have h1 := mergeTiles_length_le (row.filter (· ≠ 0))
  have h2 := List.length_filter_le (fun x => decide (x ≠ 0)) row
  simp only [List.length_append, List.length_replicate]
  omega

theorem rowOpRight_sum (size : Nat) (row : List Nat) :
    (rowOpRight size row).1.sum = row.sum := by
  unfold rowOpRight
  rw [List.sum_append, List.sum_reverse, mergeTiles_sum, List.sum_reverse,
    filter_ne_zero_sum]
  simp

theorem rowOpRight_length (size : Nat) (row : List Nat) (h : row.length ≤ size) :
    (rowOpRight size row).1.length = size := by
  unfold rowOpRight
  have h1 := mergeTiles_length_le (row.filter (· ≠ 0)).reverse
  have h2 := List.length_filter_le (fun x => decide (x ≠ 0)) row
  simp only [List.length_append, List.length_replicate, List.length_reverse]
    at h1 ⊢
  omega

theorem boardSum_cons (r : List Nat) (t : Board) :
    boardSum (r :: t) = r.sum + boardSum t := by
  simp [boardSum]

theorem boardSum_set (b : Board) (i : Nat) (x : List Nat) (h : i < b.length) :
    boardSum (b.set i x) + (b.getD i []).sum = boardSum b + x.sum := by
  induction b generalizing i with
  | nil => cases h
  | cons r t ih =>
    cases i with
    | zero =>
      simp only [List.set, boardSum_cons, List.getD_cons_zero]
      omega
    | succ i =>
      simp only [List.set, boardSum_cons, List.getD_cons_succ]
      have := ih i (Nat.lt_of_succ_lt_succ h)
      omega

theorem row_set_sum (row : List Nat) (col x : Nat) (h : col < row.length) :
    (row.set col x).sum + row.getD col 0 = row.sum + x := by
  induction row generalizing col with
  | nil => cases h
  | cons a t ih =>
    cases col with
    | zero =>
      simp only [List.set, List.sum_cons, List.getD_cons_zero]
      omega
    | succ col =>
      simp only [List.set, List.sum_cons, List.getD_cons_succ]
      have := ih col (Nat.lt_of_succ_lt_succ h)
      omega

theorem range_map_getD_sum (v : List Nat) :
    ((List.range v.length).map (fun r => v.getD r 0)).sum = v.sum := by
  induction v with
  | nil => rfl
  | cons a t ih =>
    rw [List.length_cons, List.range_succ_eq_map, List.map_cons, List.map_map]
    simp only [List.sum_cons, Function.comp_def, List.getD_cons_zero,
      List.getD_cons_succ]
    rw [ih]

theorem getD_set_ne2 {α : Type} (l : List α) (r j : Nat) (x : α) (h : j ≠ r)
    {d : α} : (l.set r x).getD j d = l.getD j d := by
  rw [List.getD_eq_getElem?_getD, List.getD_eq_getElem?_getD,
    List.getElem?_set_ne (Ne.symm h)]

/-- Effect of the column write-back loop on the board sum, together with the
structural facts needed to iterate it: lengths are preserved, rows at or past
the written prefix are untouched, and every row keeps its length. -/
theorem colWrite_inv (b : Board) (col : Nat) (v : List Nat)
    (hrow : ∀ r ∈ b, col < r.length) :
    ∀ k, k ≤ b.length →
      (((List.range k).foldl
          (fun b2 row => b2.set row ((b2.getD row []).set col (v.getD row 0)))
          b).length = b.length)
      ∧ (∀ j, k ≤ j →
          ((List.range k).foldl
            (fun b2 row => b2.set row ((b2.getD row []).set col (v.getD row 0)))
            b).getD j [] = b.getD j [])
      ∧ (boardSum ((List.range k).foldl
            (fun b2 row => b2.set row ((b2.getD row []).set col (v.getD row 0)))
            b)
          + ((List.range k).map (fun r => (b.getD r []).getD col 0)).sum
          = boardSum b + ((List.range k).map (fun r => v.getD r 0)).sum)
      ∧ (∀ r ∈ (List.range k).foldl
            (fun b2 row => b2.set row ((b2.getD row []).set col (v.getD row 0)))
            b, ∃ r0 ∈ b, r.length = r0.length) := by
  intro k
  induction k with
  | zero =>
    intro _
    exact ⟨rfl, fun j _ => rfl, by simp, fun r hr => ⟨r, hr, rfl⟩⟩
  | succ k ih =>
    intro hk
    have hk2 : k ≤ b.length := Nat.le_of_succ_le hk
    obtain ⟨ih1, ih2, ih3, ih4⟩ := ih hk2
    rw [List.range_succ, List.foldl_append, List.foldl_cons, List.foldl_nil]
    set bk := (List.range k).foldl
      (fun b2 row => b2.set row ((b2.getD row []).set col (v.getD row 0))) b
      with hbk
    have hkb : k < b.length := hk
    have hkbk : k < bk.length := ih1 ▸ hkb
    have hgd : bk.getD k [] = b.getD k [] := ih2 k (Nat.le_refl k)
    have hbmem : b.getD k [] ∈ b := by
      rw [List.getD_eq_getElem?_getD, List.getElem?_eq_getElem hkb]
      exact List.getElem_mem hkb
    have hcol : col < (b.getD k []).length := hrow _ hbmem
    refine ⟨?_, ?_, ?_, ?_⟩
    · rw [List.length_set]
      exact ih1
    · intro j hj
      have hjk : j ≠ k := by omega
      rw [getD_set_ne2 bk k j _ hjk]
      exact ih2 j (by omega)
    · have hset := boardSum_set bk k ((bk.getD k []).set col (v.getD k 0)) hkbk
      have hrowset := row_set_sum (b.getD k []) col (v.getD k 0) hcol
      rw [hgd] at hset
      rw [List.map_append, List.map_append, List.sum_append, List.sum_append,
        hgd]
      simp only [List.map_cons, List.map_nil, List.sum_cons, List.sum_nil]
      omega
    · intro r hr
      rcases List.mem_or_eq_of_mem_set hr with h | h
      · exact ih4 r h
      · refine ⟨b.getD k [], hbmem, ?_⟩
        rw [h, List.length_set, hgd]

theorem getColumn_length (b : Board) (size col : Nat) :
    (getColumn b size col).length = size := by
  simp [getColumn]

theorem getD_mem_of_lt {α : Type} (l : List α) (i : Nat) (d : α)
    (h : i < l.length) : l.getD i d ∈ l := by
  rw [List.getD_eq_getElem?_getD, List.getElem?_eq_getElem h]
  exact List.getElem_mem h

/-- Invariant of the row-by-row move loops (`_move_left` / `_move_right`):
the board total, the board dimensions and the declared size are preserved. -/
theorem rowMoveFold_inv (rowOp : Nat → List Nat → List Nat × Nat)
    (hsum : ∀ size row, (rowOp size row).1.sum = row.sum)
    (hlen : ∀ size row, row.length ≤ size → (rowOp size row).1.length = size)
    (st : GameState) :
    ∀ (l : List Nat), (∀ i ∈ l, i < st.size) →
      ∀ (acc : Bool × GameState),
      (boardSum acc.2.board = boardSum st.board ∧ acc.2.board.length = st.size
        ∧ (∀ r ∈ acc.2.board, r.length = st.size) ∧ acc.2.size = st.size) →
      (let out := l.foldl (fun acc row =>
          let s := acc.2
          let rowArr := s.board.getD row []
          let r := rowOp s.size rowArr
          let s1 : GameState := { s with score := s.score + r.2 }
          if r.1 ≠ rowArr then
            (true, { s1 with board := s1.board.set row r.1 })
          else (acc.1, s1)) acc
       boardSum out.2.board = boardSum st.board ∧ out.2.board.length = st.size
        ∧ (∀ r ∈ out.2.board, r.length = st.size) ∧ out.2.size = st.size) := by
  intro l
  induction l with
  | nil => intro _ acc hacc; exact hacc
  | cons row rest ih =>
    intro hmem acc hacc
    obtain ⟨h1, h2, h3, h4⟩ := hacc
    have hrowlt : row < st.size := hmem row (List.mem_cons_self row rest)
    rw [List.foldl_cons]
    refine ih (fun i hi => hmem i (List.mem_cons_of_mem row hi)) _ ?_
    have hlt : row < acc.2.board.length := by omega
    have hrowmem : acc.2.board.getD row [] ∈ acc.2.board :=
      getD_mem_of_lt _ row [] hlt
    have hrowlen : (acc.2.board.getD row []).length = st.size := h3 _ hrowmem
    by_cases hch : (rowOp acc.2.size (acc.2.board.getD row [])).1
        ≠ acc.2.board.getD row []
    · simp only [if_pos hch]
      have hbs := boardSum_set acc.2.board row
        (rowOp acc.2.size (acc.2.board.getD row [])).1 hlt
      have hrsum := hsum acc.2.size (acc.2.board.getD row [])
      refine ⟨by omega, by rw [List.length_set]; exact h2, ?_, h4⟩
      intro r hr
      rcases List.mem_or_eq_of_mem_set hr with hmem2 | heq
      · exact h3 r hmem2
      · rw [heq, hlen acc.2.size _ (by omega)]
        omega
    · simp only [if_neg hch]
      exact ⟨h1, h2, h3, h4⟩

/-- Invariant of the column-by-column move loops (`_move_up` / `_move_down`). -/
theorem colMoveFold_inv (rowOp : Nat → List Nat → List Nat × Nat)
    (hsum : ∀ size row, (rowOp size row).1.sum = row.sum)
    (hlen : ∀ size row, row.length ≤ size → (rowOp size row).1.length = size)
    (st : GameState) :
    ∀ (l : List Nat), (∀ i ∈ l, i < st.size) →
      ∀ (acc : Bool × GameState),
      (boardSum acc.2.board = boardSum st.board ∧ acc.2.board.length = st.size
        ∧ (∀ r ∈ acc.2.board, r.length = st.size) ∧ acc.2.size = st.size) →
      (let out := l.foldl (fun acc col =>
          let s := acc.2
          let oldCol := getColumn s.board s.size col
          let r := rowOp s.size oldCol
          let s1 : GameState := { s with score := s.score + r.2 }
          if r.1 ≠ oldCol then
            (true, { s1 with board := setColumn s1.board s1.size col r.1 })
          else (acc.1, s1)) acc
       boardSum out.2.board = boardSum st.board ∧ out.2.board.length = st.size
        ∧ (∀ r ∈ out.2.board, r.length = st.size) ∧ out.2.size = st.size) := by
  intro l
  induction l with
  | nil => intro _ acc hacc; exact hacc
  | cons col rest ih =>
    intro hmem acc hacc
    obtain ⟨h1, h2, h3, h4⟩ := hacc
    have hcollt : col < st.size := hmem col (List.mem_cons_self col rest)
    rw [List.foldl_cons]
    refine ih (fun i hi => hmem i (List.mem_cons_of_mem col hi)) _ ?_
    by_cases hch : (rowOp acc.2.size (getColumn acc.2.board acc.2.size col)).1
        ≠ getColumn acc.2.board acc.2.size col
    · simp only [if_pos hch]
      have hrowcol : ∀ r ∈ acc.2.board, col < r.length := by
        intro r hr
        rw [h3 r hr]
        exact hcollt
      have hw := colWrite_inv acc.2.board col
        (rowOp acc.2.size (getColumn acc.2.board acc.2.size col)).1 hrowcol
        acc.2.size (by omega)
      obtain ⟨hw1, _, hw3, hw4⟩ := hw
      have hnewlen :
          (rowOp acc.2.size (getColumn acc.2.board acc.2.size col)).1.length
            = acc.2.size := by
        refine hlen acc.2.size _ ?_
        rw [getColumn_length]
      have hnewsum :
          (rowOp acc.2.size (getColumn acc.2.board acc.2.size col)).1.sum
            = (getColumn acc.2.board acc.2.size col).sum := hsum _ _
      have hvpre := range_map_getD_sum
        (rowOp acc.2.size (getColumn acc.2.board acc.2.size col)).1
      rw [hnewlen] at hvpre
      have hcolpre :
          ((List.range acc.2.size).map
            (fun r => (acc.2.board.getD r []).getD col 0)).sum
            = (getColumn acc.2.board acc.2.size col).sum := by
        simp [getColumn]
      rw [hcolpre, hvpre] at hw3
      refine ⟨?_, ?_, ?_, h4⟩
      · show boardSum (setColumn acc.2.board acc.2.size col _) = boardSum st.board
        rw [setColumn]
        omega
      · show (setColumn acc.2.board acc.2.size col _).length = st.size
        rw [setColumn]
        omega
      · intro r hr
        have hr2 := hw4 r hr
        obtain ⟨r0, hr0, hlen0⟩ := hr2
        rw [hlen0]
        exact h3 r0 hr0
    · simp only [if_neg hch]
      exact ⟨h1, h2, h3, h4⟩

theorem moveLeft_inv (st : GameState) (h : SizedState st) :
    boardSum (moveLeft st).2.board = boardSum st.board
      ∧ SizedState (moveLeft st).2 ∧ (moveLeft st).2.size = st.size := by
  obtain ⟨hL, hR⟩ := h
  have key := rowMoveFold_inv rowOpLeft rowOpLeft_sum rowOpLeft_length st
    (List.range st.size) (fun i hi => List.mem_range.mp hi) (false, st)
    ⟨rfl, hL, hR, rfl⟩
  simp only at key
  obtain ⟨k1, k2, k3, k4⟩ := key
  exact ⟨k1, ⟨k2.trans k4.symm, fun r hr => (k3 r hr).trans k4.symm⟩, k4⟩

theorem moveRight_inv (st : GameState) (h : SizedState st) :
    boardSum (moveRight st).2.board = boardSum st.board
      ∧ SizedState (moveRight st).2 ∧ (moveRight st).2.size = st.size := by
  obtain ⟨hL, hR⟩ := h
  have key := rowMoveFold_inv rowOpRight rowOpRight_sum rowOpRight_length st
    (List.range st.size) (fun i hi => List.mem_range.mp hi) (false, st)
    ⟨rfl, hL, hR, rfl⟩
  simp only at key
  obtain ⟨k1, k2, k3, k4⟩ := key
  exact ⟨k1, ⟨k2.trans k4.symm, fun r hr => (k3 r hr).trans k4.symm⟩, k4⟩

theorem moveUp_inv (st : GameState) (h : SizedState st) :
    boardSum (moveUp st).2.board = boardSum st.board
      ∧ SizedState (moveUp st).2 ∧ (moveUp st).2.size = st.size := by
  obtain ⟨hL, hR⟩ := h
  have key := colMoveFold_inv rowOpLeft rowOpLeft_sum rowOpLeft_length st
    (List.range st.size) (fun i hi => List.mem_range.mp hi) (false, st)
    ⟨rfl, hL, hR, rfl⟩
  simp only at key
  obtain ⟨k1, k2, k3, k4⟩ := key
  exact ⟨k1, ⟨k2.trans k4.symm, fun r hr => (k3 r hr).trans k4.symm⟩, k4⟩

theorem moveDown_inv (st : GameState) (h : SizedState st) :
    boardSum (moveDown st).2.board = boardSum st.board
      ∧ SizedState (moveDown st).2 ∧ (moveDown st).2.size = st.size := by
  obtain ⟨hL, hR⟩ := h
  have key := colMoveFold_inv rowOpRight rowOpRight_sum rowOpRight_length st
    (List.range st.size) (fun i hi => List.mem_range.mp hi) (false, st)
    ⟨rfl, hL, hR, rfl⟩
  simp only at key
  obtain ⟨k1, k2, k3, k4⟩ := key
  exact ⟨k1, ⟨k2.trans k4.symm, fun r hr => (k3 r hr).trans k4.symm⟩, k4⟩

theorem simulateMove_boardSum (st : GameState) (d : Direction)
    (st2 : GameState) (h : SizedState st) (hsm : simulateMove st d = some st2) :
    boardSum st2.board = boardSum st.board := by
  cases d with
  | left =>
    simp only [simulateMove] at hsm
    by_cases hm : (moveLeft st).1 = true
    · rw [if_pos hm] at hsm
      rw [← Option.some.inj hsm]
      exact (moveLeft_inv st h).1
    · rw [if_neg hm] at hsm
      cases hsm
  | right =>
    simp only [simulateMove] at hsm
    by_cases hm : (moveRight st).1 = true
    · rw [if_pos hm] at hsm
      rw [← Option.some.inj hsm]
      exact (moveRight_inv st h).1
    · rw [if_neg hm] at hsm
      cases hsm
  | up =>
    simp only [simulateMove] at hsm
    by_cases hm : (moveUp st).1 = true
    · rw [if_pos hm] at hsm
      rw [← Option.some.inj hsm]
      exact (moveUp_inv st h).1
    · rw [if_neg hm] at hsm
      cases hsm
  | down =>
    simp only [simulateMove] at hsm
    by_cases hm : (moveDown st).1 = true
    · rw [if_pos hm] at hsm
      rw [← Option.some.inj hsm]
      exact (moveDown_inv st h).1
    · rw [if_neg hm] at hsm
      cases hsm

/-- C10: the slide-and-merge row operation returns a list of the same length
with the same element sum (merging two equal tiles into their double conserves
total value), for the app-solver row operation on every list, and for the
engine row operation on rows of the engine size; consequently every full-board
move of the advanced solver preserves the total of all cell values. -/
theorem C10_merge_conserves_length_and_sum :
    (∀ l : List Nat, (App.moveAndMergeArrayAI l).length = l.length
      ∧ (App.moveAndMergeArrayAI l).sum = l.sum)
    ∧ (∀ (size : Nat) (l : List Nat), l.length = size →
        (App.engineMergeArray size l).1.length = size
        ∧ (App.engineMergeArray size l).1.sum = l.sum)
    ∧ (∀ (st : GameState) (d : Direction) (st2 : GameState), SizedState st →
        simulateMove st d = some st2 → boardSum st2.board = boardSum st.board) := by
  refine ⟨fun l => ⟨moveAndMergeArrayAI_length l, moveAndMergeArrayAI_sum l⟩,
    ?_, fun st d st2 h hsm => simulateMove_boardSum st d st2 h hsm⟩
  intro size l hlen
  constructor
  · unfold App.engineMergeArray
    have h1 := mergeTiles_length_le (l.filter (· ≠ 0))
    have h2 := List.length_filter_le (fun x => decide (x ≠ 0)) l
    simp only [List.length_append, List.length_replicate]
    omega
  · unfold App.engineMergeArray
    rw [List.sum_append, mergeTiles_sum, filter_ne_zero_sum]
    simp

/-- C10 witness: concrete instantiation of every hypothesis-bearing part. -/
theorem C10_witness :
    ((App.engineMergeArray 4 [2, 2, 4, 0]).1.length = 4
      ∧ (App.engineMergeArray 4 [2, 2, 4, 0]).1.sum = List.sum [2, 2, 4, 0])
    ∧ boardSum (⟨[[0, 0], [0, 2]], 0, 2⟩ : GameState).board
        = boardSum (⟨[[0, 0], [2, 0]], 0, 2⟩ : GameState).board :=
  ⟨C10_merge_conserves_length_and_sum.2.1 4 [2, 2, 4, 0] (by decide),
   C10_merge_conserves_length_and_sum.2.2 ⟨[[0, 0], [2, 0]], 0, 2⟩ .right
     ⟨[[0, 0], [0, 2]], 0, 2⟩ ⟨by decide, by decide⟩ (by decide)⟩

/-- C7 witness: a concrete 3-simulation run on a movable 2x2 board in which
the DOWN child has the strictly highest visit count and is returned. -/
theorem C7_witness :
    legalDirections wst2 ≠ [] ∧ (3 : Nat) ≤ 3
    ∧ (mctsDecision wf0 wch0 wrnd0 3 wst2 []).1 = some .down :=
  ⟨by decide, Nat.le_refl 3,
   by
    have h := (C7_mcts_first_highest_visits wf0 wch0 wrnd0 3 wst2 []
      (by decide) (Nat.le_refl 3)).2
    rw [h]
    rfl⟩

namespace HeapModel

theorem ext_refl (h : Heap) : Ext h h := ⟨Nat.le_refl _, fun _ _ => rfl⟩

theorem ext_writeRef {h0 h : Heap} (hext : Ext h0 h) (r : Nat)
    (hr : h0.length ≤ r) (st : GameState) : Ext h0 (writeRef h r st) := by
  refine ⟨?_, fun i hi => ?_⟩
  · show h0.length ≤ (h.set r st).length
    rw [List.length_set]
    exact hext.1
  · show (h.set r st).getD i emptyState = _
    rw [getD_set_ne2 h r i st (by omega)]
    exact hext.2 i hi

theorem ext_append {h0 h : Heap} (hext : Ext h0 h) (l : List GameState) :
    Ext h0 (h ++ l) := by
  have h1 := hext.1
  refine ⟨by simp only [List.length_append]; omega, fun i hi => ?_⟩
  show (h ++ l).getD i emptyState = _
  rw [List.getD_eq_getElem?_getD, List.getElem?_append_left (by omega),
    ← List.getD_eq_getElem?_getD]
  exact hext.2 i hi

theorem allocCopy_ext {h0 h : Heap} (hext : Ext h0 h) (r : Nat) :
    Ext h0 (allocCopy h r).2 ∧ h0.length ≤ (allocCopy h r).1 :=
  ⟨ext_append hext [readRef h r], hext.1⟩

/-- `_simulate_move` only allocates and writes the fresh copy: every
pre-existing heap object keeps its contents. -/
theorem hSimulateMove_ext {h0 h : Heap} (hext : Ext h0 h) (r : Nat)
    (d : Direction) : Ext h0 (hSimulateMove h r d).2 := by
  have ha := allocCopy_ext hext r
  exact ext_writeRef ha.1 (allocCopy h r).1 ha.2 _

/-- When `_simulate_move` reports a moved board, the reference it returns is
the freshly allocated copy. -/
theorem hSimulateMove_fresh {h : Heap} {r : Nat} {d : Direction} {rn : Nat}
    (hsome : (hSimulateMove h r d).1 = some rn) : rn = h.length := by
  simp only [hSimulateMove, allocCopy] at hsome
  split at hsome
  · exact (Option.some.inj hsome).symm
  · cases hsome

theorem hPlaceCopy_ext {h0 h : Heap} (hext : Ext h0 h) (r i j v : Nat) :
    Ext h0 (hPlaceCopy h r i j v).2 := by
  have ha := allocCopy_ext hext r
  exact ext_writeRef ha.1 (allocCopy h r).1 ha.2 _

theorem hChanceAccum_ext {h0 : Heap}
    (next : Nat → Heap → SearchSt → XF × Heap × SearchSt)
    (hnext : ∀ rn hn σn, Ext h0 hn → Ext h0 (next rn hn σn).2.1)
    (r : Nat) (empty : List (Nat × Nat)) (h : Heap) (σ : SearchSt)
    (hext : Ext h0 h) : Ext h0 (hChanceAccum next r empty h σ).2.1 := by
  unfold hChanceAccum
  refine foldl_inv_mem (fun acc : XF × Heap × SearchSt => Ext h0 acc.2.1) _
    empty (fun acc ij hmem hacc => ?_) _ hext
  refine foldl_inv_mem (fun acc2 : XF × Heap × SearchSt => Ext h0 acc2.2.1) _
    tileOutcomes (fun acc2 tp hmem2 hacc2 => ?_) _ hacc
  exact hnext _ _ _ (hPlaceCopy_ext hacc2 r ij.1 ij.2 tp.1)

theorem hEmMaxGo_ext {h0 : Heap}
    (next : Nat → Heap → SearchSt → XF × Heap × SearchSt)
    (hnext : ∀ rn hn σn, Ext h0 hn → Ext h0 (next rn hn σn).2.1) (r : Nat) :
    ∀ (l : List Direction) (acc : XF × Bool × Heap × SearchSt),
      Ext h0 acc.2.2.1 → Ext h0 (hEmMaxGo next r l acc).2.2.1 := by
  intro l
  induction l with
  | nil => intro acc hacc; exact hacc
  | cons dir rest ih =>
    intro acc hacc
    have hsm := hSimulateMove_ext hacc r dir
    rw [hEmMaxGo]
    simp only []
    split
    · exact ih _ hsm
    · split
      · exact ih _ (hnext _ _ _ hsm)
      · exact ih _ hsm

theorem hEmStep_ext (f : GameState → ℚ) {h0 : Heap} :
    ∀ (d : Nat) (m : Bool) (r : Nat) (h : Heap) (σ : SearchSt), Ext h0 h →
      Ext h0 (hEmStep f d m r h σ).2.1 := by
  intro d
  induction d with
  | zero => intro m r h σ hext; exact hext
  | succ d ih =>
    intro m r h σ hext
    cases m with
    | false =>
      rw [hEmStep]
      cases hec : getEmptyCells (readRef h r) with
      | nil => exact hext
      | cons e es =>
        exact hChanceAccum_ext _ (fun rn hn σn hx => ih true rn hn σn hx)
          r (e :: es) h σ hext
    | true =>
      rw [hEmStep]
      cases hcl : alookup σ.cache (readRef h r).board with
      | some v => exact hext
      | none =>
        exact hEmMaxGo_ext _ (fun rn hn σn hx => ih false rn hn σn hx) r
          directionList (.negInf, false, h, σ) hext

theorem hEmDecisionGo_ext {h0 : Heap}
    (step : Nat → Heap → SearchSt → XF × Heap × SearchSt)
    (hstep : ∀ rn hn σn, Ext h0 hn → Ext h0 (step rn hn σn).2.1) (r : Nat) :
    ∀ (l : List Direction) (acc : Option Direction × XF × Heap × SearchSt),
      Ext h0 acc.2.2.1 → Ext h0 (hEmDecisionGo step r l acc).2.2.1 := by
  intro l
  induction l with
  | nil => intro acc hacc; exact hacc
  | cons dir rest ih =>
    intro acc hacc
    have hsm := hSimulateMove_ext hacc r dir
    rw [hEmDecisionGo]
    simp only []
    split
    · exact ih _ hsm
    · split
      · split
        · exact ih _ (hstep _ _ _ hsm)
        · exact ih _ (hstep _ _ _ hsm)
      · exact ih _ hsm

theorem hEmDecision_ext (f : GameState → ℚ) (maxDepth r : Nat) (h : Heap)
    (σ : SearchSt) : Ext h (hEmDecision f maxDepth r h σ).2.1 := by
  unfold hEmDecision
  exact hEmDecisionGo_ext _
    (fun rn hn σn hx => hEmStep_ext f (maxDepth - 1) false rn hn σn hx)
    r directionList (none, .negInf, h, σ) (ext_refl h)

theorem hAbMaxGo_ext {h0 : Heap}
    (next : Nat → Heap → SearchSt → XF → XF → XF × Heap × SearchSt)
    (hnext : ∀ rn hn σn a b, Ext h0 hn → Ext h0 (next rn hn σn a b).2.1)
    (r : Nat) (beta : XF) :
    ∀ (l : List Direction) (acc : XF × Bool × XF × Heap × SearchSt),
      Ext h0 acc.2.2.2.1 → Ext h0 (hAbMaxGo next r beta l acc).2.2.2.1 := by
  intro l
  induction l with
  | nil => intro acc hacc; exact hacc
  | cons dir rest ih =>
    intro acc hacc
    have hsm := hSimulateMove_ext hacc r dir
    rw [hAbMaxGo]
    simp only []
    split
    · exact ih _ hsm
    · split
      · split
        · exact hnext _ _ _ _ _ hsm
        · exact ih _ (hnext _ _ _ _ _ hsm)
      · exact ih _ hsm

theorem hAbStep_ext (f : GameState → ℚ) {h0 : Heap} :
    ∀ (d : Nat) (m : Bool) (r : Nat) (h : Heap) (σ : SearchSt) (a b : XF),
      Ext h0 h → Ext h0 (hAbStep f d m r h σ a b).2.1 := by
  intro d
  induction d with
  | zero => intro m r h σ a b hext; exact hext
  | succ d ih =>
    intro m r h σ a b hext
    cases m with
    | false =>
      rw [hAbStep]
      cases hec : getEmptyCells (readRef h r) with
      | nil => exact hext
      | cons e es =>
        exact hChanceAccum_ext _ (fun rn hn σn hx => ih true rn hn σn a b hx)
          r (e :: es) h σ hext
    | true =>
      rw [hAbStep]
      cases hcl : alookup σ.cache (readRef h r).board with
      | some v => exact hext
      | none =>
        exact hAbMaxGo_ext _ (fun rn hn σn a2 b2 hx => ih false rn hn σn a2 b2 hx)
          r b directionList (.negInf, false, a, h, σ) hext

theorem hAbDecisionGo_ext {h0 : Heap}
    (step : Nat → Heap → SearchSt → XF → XF × Heap × SearchSt)
    (hstep : ∀ rn hn σn a, Ext h0 hn → Ext h0 (step rn hn σn a).2.1) (r : Nat) :
    ∀ (l : List Direction) (acc : Option Direction × XF × XF × Heap × SearchSt),
      Ext h0 acc.2.2.2.1 → Ext h0 (hAbDecisionGo step r l acc).2.2.2.1 := by
  intro l
  induction l with
  | nil => intro acc hacc; exact hacc
  | cons dir rest ih =>
    intro acc hacc
    have hsm := hSimulateMove_ext hacc r dir
    rw [hAbDecisionGo]
    simp only []
    split
    · exact ih _ hsm
    · split
      · split
        · exact ih _ (hstep _ _ _ _ hsm)
        · exact ih _ (hstep _ _ _ _ hsm)
      · exact ih _ hsm

theorem hAbDecision_ext (f : GameState → ℚ) (maxDepth r : Nat) (h : Heap)
    (σ : SearchSt) : Ext h (hAbDecision f maxDepth r h σ).2.1 := by
  unfold hAbDecision
  exact hAbDecisionGo_ext _
    (fun rn hn σn a hx => hAbStep_ext f (maxDepth - 1) false rn hn σn a .posInf hx)
    r directionList (none, .negInf, .negInf, h, σ) (ext_refl h)

theorem hExpandGo_ext {h0 : Heap} (r : Nat) :
    ∀ (l : List Direction) (acc : List (Direction × HTree) × Heap),
      Ext h0 acc.2 → Ext h0 (hExpandGo r l acc).2 := by
  intro l
  induction l with
  | nil => intro acc hacc; exact hacc
  | cons d rest ih =>
    intro acc hacc
    have hsm := hSimulateMove_ext hacc r d
    rw [hExpandGo]
    cases heq : (hSimulateMove acc.2 r d).1 with
    | none => exact ih _ hsm
    | some rn => exact ih _ hsm

theorem hExpandChildren_ext {h0 h : Heap} (hext : Ext h0 h) (r : Nat) :
    Ext h0 (hExpandChildren h r).2 :=
  hExpandGo_ext r directionList ([], h) hext

theorem hUpdateChild_ext {h0 : Heap} (gfun : HTree → Heap → HTree × Heap)
    (hg : ∀ t hh, Ext h0 hh → Ext h0 (gfun t hh).2) :
    ∀ (cs : List (Direction × HTree)) (d : Direction) (h : Heap), Ext h0 h →
      Ext h0 (hUpdateChild cs d gfun h).2 := by
  intro cs
  induction cs with
  | nil => intro d h hext; exact hext
  | cons c rest ih =>
    intro d h hext
    rw [hUpdateChild]
    by_cases hc : c.1 = d
    · rw [if_pos hc]
      exact ih d _ (hg c.2 h hext)
    · rw [if_neg hc]
      exact ih d h hext

theorem hExpandAt_ext {h0 : Heap} :
    ∀ (p : List Direction) (t : HTree) (h : Heap), Ext h0 h →
      Ext h0 (hExpandAt t p h).2 := by
  intro p
  induction p with
  | nil =>
    intro t h hext
    cases t with
    | mk r v w cs => exact hExpandChildren_ext hext r
  | cons d rest ih =>
    intro t h hext
    cases t with
    | mk r v w cs =>
      exact hUpdateChild_ext (fun t hh => hExpandAt t rest hh)
        (fun t hh hx => ih t hh hx) cs d h hext

/-- Invariant of the rollout's direction scan: the heap only grows, and every
reference it collects is a fresh copy (allocated after the base heap). -/
theorem hMctsScan_inv (r : Nat) {h0 : Heap} :
    ∀ (l : List Direction) (acc : List (Direction × Nat) × Heap),
      Ext h0 acc.2 → (∀ q ∈ acc.1, h0.length ≤ q.2) →
      Ext h0 (hMctsScan r l acc).2
      ∧ ∀ q ∈ (hMctsScan r l acc).1, h0.length ≤ q.2 := by
  intro l
  induction l with
  | nil => intro acc h1 h2; exact ⟨h1, h2⟩
  | cons d rest ih =>
    intro acc h1 h2
    have hsm := hSimulateMove_ext h1 r d
    rw [hMctsScan]
    cases heq : (hSimulateMove acc.2 r d).1 with
    | none => exact ih _ hsm h2
    | some rn =>
      refine ih _ hsm ?_
      intro q hq
      rcases List.mem_append.mp hq with hq | hq
      · exact h2 q hq
      · rw [List.mem_singleton.mp hq]
        show h0.length ≤ rn
        rw [hSimulateMove_fresh heq]
        exact h1.1

theorem hMctsSimulate_ext (f : GameState → ℚ) (rnd : Nat → Nat) {h0 : Heap} :
    ∀ (fuel r : Nat) (h : Heap) (k : Nat) (hc : HCache), Ext h0 h →
      Ext h0 (hMctsSimulate f rnd fuel r h k hc).2.1 := by
  intro fuel
  induction fuel with
  | zero => intro r h k hc hext; exact hext
  | succ fuel ih =>
    intro r h k hc hext
    have hscan := hMctsScan_inv r directionList ([], h) hext (fun q hq => by cases hq)
    rw [hMctsSimulate]
    cases heq : (hMctsScan r directionList ([], h)).1 with
    | nil => exact hscan.1
    | cons l ls =>
      rw [heq] at hscan
      refine ih _ _ _ _ (ext_writeRef hscan.1 _ ?_ _)
      refine hscan.2 _ (getD_mem_of_lt _ _ _ ?_)
      exact Nat.mod_lt _ (by simp)

theorem hMctsIter_ext (f : GameState → ℚ) (choose : HChooser)
    (rnd : Nat → Nat) (fuel : Nat) (t : HTree) {h0 h : Heap} (k : Nat)
    (hc : HCache) (hext : Ext h0 h) :
    Ext h0 (hMctsIter f choose rnd fuel t h k hc).2.1 := by
  unfold hMctsIter
  have he : Ext h0 (if 0 < (hNodeAt t (hSelectPath choose fuel t)).visits
      then hExpandAt t (hSelectPath choose fuel t) h else (t, h)).2 := by
    split
    · exact hExpandAt_ext _ t h hext
    · exact hext
  have hcopy := (allocCopy_ext he (hNodeAt t (hSelectPath choose fuel t)).stateRef).1
  exact hMctsSimulate_ext f rnd 100 _ _ k hc hcopy

theorem hMctsLoop_ext (f : GameState → ℚ) (choose : HChooser)
    (rnd : Nat → Nat) (fuel : Nat) {h0 : Heap} :
    ∀ (n : Nat) (acc : HTree × Heap × Nat × HCache), Ext h0 acc.2.1 →
      Ext h0 (hMctsLoop f choose rnd fuel n acc).2.1 := by
  intro n
  induction n with
  | zero => intro acc hacc; exact hacc
  | succ n ih =>
    intro acc hacc
    rw [hMctsLoop]
    exact ih _ (hMctsIter_ext f choose rnd fuel acc.1 acc.2.2.1 acc.2.2.2 hacc)

theorem hMctsDecision_ext (f : GameState → ℚ) (choose : HChooser)
    (rnd : Nat → Nat) (sims r : Nat) (h : Heap) (hc : HCache) :
    Ext h (hMctsDecision f choose rnd sims r h hc).2.1 := by
  unfold hMctsDecision
  exact hMctsLoop_ext f choose rnd (sims + 1) sims (HTree.mk r 0 0 [], h, 0, hc)
    (ext_refl h)

/-- The full dispatcher only ever extends the heap: objects alive before the
call keep their contents. -/
theorem hGetBestMove_ext (f : GameState → ℚ) (choose : HChooser)
    (rnd : Nat → Nat) (s : Solver) (h : Heap) (r : Nat) :
    Ext h (hGetBestMove f choose rnd s h r).2.1 := by
  rcases s with ⟨alg, maxDepth, diff, sims, cache, hcache, nodes⟩
  cases alg with
  | expectimax => exact hEmDecision_ext f _ r h _
  | alpha_beta => exact hAbDecision_ext f _ r h _
  | mcts => exact hMctsDecision_ext f choose rnd _ r h _
  | minimax => exact ext_refl h
  | neural_heuristic => exact ext_refl h

end HeapModel

/-- C8: running `get_best_move` on the explicit-heap rendering of the solver —
where Python objects are heap entries, `GameState.copy` allocates, and the
in-place `_move_*` methods write through references — leaves the caller's
state object untouched: for every evaluator, child chooser, randomness
oracle, solver configuration (any algorithm and depth budget), heap and live
input reference, every cell of the input board and the input score read back
unchanged after the call, because all hypothetical moves are simulated on
fresh copies. -/
theorem C8_search_preserves_input_state (f : GameState → ℚ)
    (choose : HeapModel.HChooser) (rnd : Nat → Nat) (s : Solver)
    (h : HeapModel.Heap) (r : Nat) (hr : r < h.length) :
    (HeapModel.readRef (HeapModel.hGetBestMove f choose rnd s h r).2.1 r).board
        = (HeapModel.readRef h r).board
    ∧ (HeapModel.readRef (HeapModel.hGetBestMove f choose rnd s h r).2.1 r).score
        = (HeapModel.readRef h r).score := by
  have he := HeapModel.hGetBestMove_ext f choose rnd s h r
  rw [he.2 r hr]
  exact ⟨rfl, rfl⟩

/-- C8 witness: a concrete one-object heap holding a movable 2x2 state, run
through the depth-1 expectimax solver; the object's board and score are
unchanged. -/
theorem C8_witness :
    (0 : Nat) < [wst2].length
    ∧ ((HeapModel.readRef
          (HeapModel.hGetBestMove wf0 wchH wrnd0 wSolverE1 [wst2] 0).2.1 0).board
        = (HeapModel.readRef [wst2] 0).board
      ∧ (HeapModel.readRef
          (HeapModel.hGetBestMove wf0 wchH wrnd0 wSolverE1 [wst2] 0).2.1 0).score
        = (HeapModel.readRef [wst2] 0).score) :=
  ⟨by decide,
   C8_search_preserves_input_state wf0 wchH wrnd0 wSolverE1 [wst2] 0 (by decide)⟩

end Fancy2048
